import Mathlib

/-!
Toy antivirus simulator: the record-management core.

A shallow embedding of `src/antivirus.c`.

* A singly linked list (`struct FileRec *`, `struct Sig *`) is a Lean `List`, head first;
  the `NULL` pointer is `[]` for a list head and `none` for a returned node.
* A C string is a `String`; `strcmp(a, b) == 0` is equality of the two strings and
  `strstr` is embedded on the character sequences.
* `size_t` values are natural numbers; `total_bytes` reduces its running sum modulo
  `2 ^ SIZE_BITS` as unsigned C arithmetic does.  The `int` counters (`count_files`,
  `suspicious_count`) are natural numbers: they only ever count list nodes.
* The four global list heads are the fields of `State`.
* Each `cmd_*` function returns the new globals together with the message it prints.
* `malloc` is taken to succeed.
* The second loop of `cmd_scan` is embedded twice: on lists (`scan_move`) and on linked
  nodes in memory (`Mem.scan_move`, with `Mem.remove_file` and `Mem.insert_file`
  assigning `next` fields). `mem_scan_move_spec` relates the two.
-/

namespace Antivirus

/-! ## Data model -/

/-- The record `struct FileRec` without its `next` link. -/
structure FileRec where
  name : String
  size : Nat
  is_suspicious : Bool
  deriving DecidableEq, Repr

/-- The record `struct Sig` without its `next` link. -/
structure Sig where
  pattern : String
  deriving DecidableEq, Repr

/-- The four globals `clean_list`, `suspect_list`, `quarantine_list`, `signature_list`. -/
structure State where
  clean_list : List FileRec
  suspect_list : List FileRec
  quarantine_list : List FileRec
  signature_list : List Sig
  deriving DecidableEq, Repr

/-- The globals at program start: all four heads are `NULL`. -/
def initial : State :=
  { clean_list := [], suspect_list := [], quarantine_list := [], signature_list := [] }

/-- What a command prints, one constructor per `printf` of the `cmd_*` functions. -/
inductive Msg where
  | sig_exists
  | sig_added
  | sig_removed
  | sig_not_found
  | file_exists
  | file_loaded
  | alloc_failed
  | nothing_to_scan
  | scan_complete (suspicious_count : Nat)
  | quarantined
  | not_in_suspect
  | restored
  | not_in_quarantine
  | purged
  deriving DecidableEq, Repr

/-! ## C library -/

/-- The C library call `strstr(haystack, needle)` on character sequences: the suffix of
`haystack` that starts at the first occurrence of `needle`, or `none` (`NULL`) when
`needle` does not occur. An empty `needle` occurs at the start. -/
def strstr_chars : List Char → List Char → Option (List Char)
  | [], needle => if needle.isPrefixOf [] then some [] else none
  | c :: cs, needle =>
    if needle.isPrefixOf (c :: cs) then some (c :: cs) else strstr_chars cs needle

/-- The C library call `strstr` on strings. -/
def strstr (haystack needle : String) : Option (List Char) :=
  strstr_chars haystack.data needle.data

/-! ## File lists -/

/-- Source `create_file`: a fresh record with `is_suspicious = 0`. Allocation succeeds, so
the result is never `NULL`. -/
def create_file (name : String) (size : Nat) : Option FileRec :=
  some { name := name, size := size, is_suspicious := false }

/-- Source `insert_file`: push the node at the head. -/
def insert_file (head : List FileRec) (node : FileRec) : List FileRec :=
  node :: head

/-- Source `find_file`: the first record whose name is `name`, or `NULL`. -/
def find_file : List FileRec → String → Option FileRec
  | [], _ => none
  | current :: rest, name =>
    if current.name = name then some current else find_file rest name

/-- Source `remove_file`: unlink the first record whose name is `name`. The result is the
returned node (`none` for `NULL`) and the list that `*head` designates afterwards. -/
def remove_file : List FileRec → String → Option FileRec × List FileRec
  | [], _ => (none, [])
  | current :: rest, name =>
    if current.name = name then (some current, rest)
    else ((remove_file rest name).1, current :: (remove_file rest name).2)

/-- Source `free_file_list`: every node is released and `*head` becomes `NULL`. -/
def free_file_list : List FileRec → List FileRec
  | [] => []
  | _ :: rest => free_file_list rest

/-- Source `count_files`. -/
def count_files : List FileRec → Nat
  | [] => 0
  | _ :: rest => count_files rest + 1

/-- Width of `size_t` in bits. -/
def SIZE_BITS : Nat := 64

/-- Source `total_bytes`, as a loop over the list with the running `size_t` total. -/
def total_bytes_loop : List FileRec → Nat → Nat
  | [], total => total
  | current :: rest, total => total_bytes_loop rest ((total + current.size) % 2 ^ SIZE_BITS)

/-- Source `total_bytes`. -/
def total_bytes (head : List FileRec) : Nat :=
  total_bytes_loop head 0

/-! ## Signature list -/

/-- Source `create_signature`. Allocation succeeds, so the result is never `NULL`. -/
def create_signature (pattern : String) : Option Sig :=
  some { pattern := pattern }

/-- Source `insert_signature`: push the node at the head. -/
def insert_signature (head : List Sig) (sig : Sig) : List Sig :=
  sig :: head

/-- Source `find_signature`: the first signature whose pattern is `pattern`, or `NULL`. -/
def find_signature : List Sig → String → Option Sig
  | [], _ => none
  | current :: rest, pattern =>
    if current.pattern = pattern then some current else find_signature rest pattern

/-- Source `remove_signature`: unlink the first signature whose pattern is `pattern`. -/
def remove_signature : List Sig → String → Option Sig × List Sig
  | [], _ => (none, [])
  | current :: rest, pattern =>
    if current.pattern = pattern then (some current, rest)
    else ((remove_signature rest pattern).1, current :: (remove_signature rest pattern).2)

/-- Source `free_signature_list`. -/
def free_signature_list : List Sig → List Sig
  | [] => []
  | _ :: rest => free_signature_list rest

/-! ## Commands -/

/-- Source `cmd_add_sig`. -/
def cmd_add_sig (s : State) (pattern : String) : State × Msg :=
  match find_signature s.signature_list pattern with
  | some _ => (s, Msg.sig_exists)
  | none =>
    match create_signature pattern with
    | some sig =>
      ({ s with signature_list := insert_signature s.signature_list sig }, Msg.sig_added)
    | none => (s, Msg.alloc_failed)

/-- Source `cmd_del_sig`. -/
def cmd_del_sig (s : State) (pattern : String) : State × Msg :=
  match remove_signature s.signature_list pattern with
  | (some _, rest) => ({ s with signature_list := rest }, Msg.sig_removed)
  | (none, rest) => ({ s with signature_list := rest }, Msg.sig_not_found)

/-- Source `cmd_load`. -/
def cmd_load (s : State) (name : String) (size : Nat) : State × Msg :=
  if (find_file s.clean_list name).isSome || (find_file s.suspect_list name).isSome
      || (find_file s.quarantine_list name).isSome then
    (s, Msg.file_exists)
  else
    match create_file name size with
    | some file => ({ s with clean_list := insert_file s.clean_list file }, Msg.file_loaded)
    | none => (s, Msg.alloc_failed)

/-- The inner loop of `cmd_scan`: the first signature, in store order, whose pattern
occurs in `name`; `none` when the loop runs to the end of the list. -/
def scan_first_match (name : String) : List Sig → Option Sig
  | [] => none
  | sig :: rest =>
    if (strstr name sig.pattern).isSome then some sig else scan_first_match name rest

/-- The first loop of `cmd_scan` ("mark sus files"): walks the clean list, sets
`is_suspicious` on a record at its first matching signature and increments
`suspicious_count` once for it. The flag of a record that matches nothing is left as
it is. -/
def scan_mark (sigs : List Sig) : List FileRec → Nat → List FileRec × Nat
  | [], suspicious_count => ([], suspicious_count)
  | current :: rest, suspicious_count =>
    match scan_first_match current.name sigs with
    | some _ =>
      ({ current with is_suspicious := true } :: (scan_mark sigs rest (suspicious_count + 1)).1,
        (scan_mark sigs rest (suspicious_count + 1)).2)
    | none =>
      (current :: (scan_mark sigs rest suspicious_count).1,
        (scan_mark sigs rest suspicious_count).2)

/-- The second loop of `cmd_scan` ("move sus files to suspect list"). The first argument
is the part of the chain still to be walked, from `current` on; every flagged record
has `remove_file(&clean_list, current->name)` applied and the returned node pushed on
the suspect list. `insert_file` dereferences its node, so a `NULL` result of
`remove_file` has no defined continuation: the loop yields `none`. -/
def scan_move : List FileRec → List FileRec → List FileRec →
    Option (List FileRec × List FileRec)
  | [], clean, suspect => some (clean, suspect)
  | current :: next, clean, suspect =>
    if current.is_suspicious then
      match remove_file clean current.name with
      | (some removed, clean') => scan_move next clean' (insert_file suspect removed)
      | (none, _) => none
    else scan_move next clean suspect

/-- Source `cmd_scan`. -/
def cmd_scan (s : State) : Option (State × Msg) :=
  match s.signature_list with
  | [] => some (s, Msg.nothing_to_scan)
  | sig :: sigs =>
    let marked := scan_mark (sig :: sigs) s.clean_list 0
    match scan_move marked.1 marked.1 s.suspect_list with
    | some (clean, suspect) =>
      some ({ s with clean_list := clean, suspect_list := suspect }, Msg.scan_complete marked.2)
    | none => none

/-- Source `cmd_quarantine`. -/
def cmd_quarantine (s : State) (name : String) : State × Msg :=
  match remove_file s.suspect_list name with
  | (some file, rest) =>
    ({ s with suspect_list := rest, quarantine_list := insert_file s.quarantine_list file },
      Msg.quarantined)
  | (none, rest) => ({ s with suspect_list := rest }, Msg.not_in_suspect)

/-- Source `cmd_restore`. -/
def cmd_restore (s : State) (name : String) : State × Msg :=
  match remove_file s.quarantine_list name with
  | (some file, rest) =>
    ({ s with quarantine_list := rest,
              clean_list := insert_file s.clean_list { file with is_suspicious := false } },
      Msg.restored)
  | (none, rest) => ({ s with quarantine_list := rest }, Msg.not_in_quarantine)

/-- Source `cmd_purge`. -/
def cmd_purge (s : State) : State × Msg :=
  ({ clean_list := free_file_list s.clean_list,
     suspect_list := free_file_list s.suspect_list,
     quarantine_list := free_file_list s.quarantine_list,
     signature_list := free_signature_list s.signature_list }, Msg.purged)

/-! ## Command sequences -/

/-- The state-changing commands of the dispatcher in `main`. -/
inductive Cmd where
  | add_sig (pattern : String)
  | del_sig (pattern : String)
  | load (name : String) (size : Nat)
  | scan
  | quarantine (name : String)
  | restore (name : String)
  | purge
  deriving DecidableEq, Repr

/-- One command applied to the globals. -/
def exec (s : State) : Cmd → Option (State × Msg)
  | Cmd.add_sig pattern => some (cmd_add_sig s pattern)
  | Cmd.del_sig pattern => some (cmd_del_sig s pattern)
  | Cmd.load name size => some (cmd_load s name size)
  | Cmd.scan => cmd_scan s
  | Cmd.quarantine name => some (cmd_quarantine s name)
  | Cmd.restore name => some (cmd_restore s name)
  | Cmd.purge => some (cmd_purge s)

/-- The states reached from the empty start state by finitely many commands. -/
inductive Reachable : State → Prop where
  | start : Reachable initial
  | step {s s' : State} {m : Msg} (c : Cmd) :
      Reachable s → exec s c = some (s', m) → Reachable s'

/-- A whole command sequence run from a state; `none` if one of the commands has no
defined result. -/
def run : State → List Cmd → Option State
  | s, [] => some s
  | s, c :: cs =>
    match exec s c with
    | some (s', _) => run s' cs
    | none => none

/-! ## Specification vocabulary -/

/-- The names of the records of a list, in list order. -/
def names (l : List FileRec) : List String :=
  l.map (fun r => r.name)

/-- The concatenation of the three partitions. -/
def registry (s : State) : List FileRec :=
  s.clean_list ++ s.suspect_list ++ s.quarantine_list

/-- Some stored signature occurs in `name` as a contiguous, case-sensitive substring. -/
def name_matches (sigs : List Sig) (name : String) : Prop :=
  ∃ sig ∈ sigs, sig.pattern.data <:+: name.data

instance (sigs : List Sig) (name : String) : Decidable (name_matches sigs name) := by
  unfold name_matches; infer_instance

/-- The record with its flag set, as the first loop of `cmd_scan` leaves a match. -/
def flagged (r : FileRec) : FileRec :=
  { r with is_suspicious := true }

/-- What the first loop of `cmd_scan` does to one record. -/
def mark (sigs : List Sig) (r : FileRec) : FileRec :=
  if name_matches sigs r.name then flagged r else r

/-- The state that a scan with a non-empty signature list leaves when the clean names are
pairwise distinct and no clean record is flagged: the clean list keeps its records that
match nothing, in their order, and the matching ones are pushed one after the other
onto the suspect list. -/
def scan_result (s : State) : State :=
  { s with
    clean_list := s.clean_list.filter (fun r => !decide (name_matches s.signature_list r.name)),
    suspect_list :=
      ((s.clean_list.filter (fun r => decide (name_matches s.signature_list r.name))).map
        flagged).reverse ++ s.suspect_list }

/-- The number of clean records whose name contains a stored signature. -/
def match_count (s : State) : Nat :=
  (s.clean_list.filter (fun r => decide (name_matches s.signature_list r.name))).length

/-- The invariant carried along every command sequence. -/
structure Inv (s : State) : Prop where
  nodup : (names (registry s)).Nodup
  clean_unflagged : ∀ r ∈ s.clean_list, r.is_suspicious = false
  suspect_flagged : ∀ r ∈ s.suspect_list, r.is_suspicious = true
  quarantine_flagged : ∀ r ∈ s.quarantine_list, r.is_suspicious = true

/-! ## Sample states -/

/-- The state after `ADD_SIG virus`, `LOAD virus1.exe 10`, `LOAD virus2.exe 20`,
`LOAD readme.txt 50`. -/
def sample_loaded : State :=
  { clean_list := [⟨"readme.txt", 50, false⟩, ⟨"virus2.exe", 20, false⟩,
      ⟨"virus1.exe", 10, false⟩],
    suspect_list := [],
    quarantine_list := [],
    signature_list := [⟨"virus"⟩] }

/-- The state `sample_loaded` after `SCAN`. -/
def sample_scanned : State :=
  { clean_list := [⟨"readme.txt", 50, false⟩],
    suspect_list := [⟨"virus1.exe", 10, true⟩, ⟨"virus2.exe", 20, true⟩],
    quarantine_list := [],
    signature_list := [⟨"virus"⟩] }

/-- The state `sample_scanned` after `QUAR virus1.exe`. -/
def sample_quarantined : State :=
  { clean_list := [⟨"readme.txt", 50, false⟩],
    suspect_list := [⟨"virus2.exe", 20, true⟩],
    quarantine_list := [⟨"virus1.exe", 10, true⟩],
    signature_list := [⟨"virus"⟩] }

/-- The state after `ADD_SIG exe`, `ADD_SIG virus`, `LOAD virus1.exe 10`,
`LOAD setup.exe 5`, `LOAD readme.txt 50`: the name `virus1.exe` contains both
signatures. -/
def sample_two_sigs : State :=
  { clean_list := [⟨"readme.txt", 50, false⟩, ⟨"setup.exe", 5, false⟩,
      ⟨"virus1.exe", 10, false⟩],
    suspect_list := [],
    quarantine_list := [],
    signature_list := [⟨"virus"⟩, ⟨"exe"⟩] }

/-- The state `sample_quarantined` after `DEL_SIG virus`: files in all three partitions
and no signature. -/
def sample_unsigned : State :=
  { clean_list := [⟨"readme.txt", 50, false⟩],
    suspect_list := [⟨"virus2.exe", 20, true⟩],
    quarantine_list := [⟨"virus1.exe", 10, true⟩],
    signature_list := [] }

/-- The patterns of the signatures of a list, in list order. -/
def patterns (l : List Sig) : List String :=
  l.map (fun g => g.pattern)

/-- The `(name, size)` pairs of the records of a list, in list order. -/
def pairs (l : List FileRec) : List (String × Nat) :=
  l.map (fun r => (r.name, r.size))

/-- The mathematical sum of the `size` fields of a list. -/
def size_sum (l : List FileRec) : Nat :=
  (l.map (fun r => r.size)).sum

/-- The state after `LOAD a 18446744073709551615`, `LOAD b 1`. The dispatcher passes
`atoi(arg2)` converted to `size_t`, so `LOAD a -1` produces the first of these sizes. -/
def sample_big : State :=
  { clean_list := [⟨"b", 1, false⟩, ⟨"a", 18446744073709551615, false⟩],
    suspect_list := [],
    quarantine_list := [],
    signature_list := [] }

/-- The number of records over the three partitions, as `cmd_report` counts them. -/
def file_count (s : State) : Nat :=
  count_files s.clean_list + count_files s.suspect_list + count_files s.quarantine_list

/-- The one-pass partition of the clean list that the scan is compared with: walking the
clean list once, a record whose name matches a signature is pushed, flagged, onto the
suspect list, and any other record is kept, in order, in the clean list. The result
is the new clean list and the new suspect list. -/
def one_pass_partition (sigs : List Sig) :
    List FileRec → List FileRec → List FileRec × List FileRec
  | [], suspect => ([], suspect)
  | r :: rest, suspect =>
    if name_matches sigs r.name then
      one_pass_partition sigs rest ({ r with is_suspicious := true } :: suspect)
    else
      (r :: (one_pass_partition sigs rest suspect).1,
        (one_pass_partition sigs rest suspect).2)

/-! ## The migration pass on linked nodes

The second loop of `cmd_scan` once more, this time on the nodes themselves: memory maps
an address to a node, a pointer is an address or `NULL`, and `remove_file` and
`insert_file` assign `next` fields. -/

/-- A node `struct FileRec` in memory: the record and its `next` pointer (`none` is
`NULL`). -/
structure Cell where
  file : FileRec
  next : Option Nat
  deriving DecidableEq, Repr

/-- Memory: the node at each address. -/
abbrev Heap : Type := Nat → Cell

/-- The assignment `p->next = q`. -/
def Heap.set_next (h : Heap) (p : Nat) (q : Option Nat) : Heap :=
  Function.update h p { file := (h p).file, next := q }

/-- How a loop on linked nodes ends: normally, by dereferencing `NULL`, or not within the
given number of iterations. -/
inductive Run (α : Type) where
  | ok (a : α)
  | null_deref
  | no_fuel

/-- The loop of source `remove_file` on linked nodes, with its variables `prev` and
`current`; at most `fuel` iterations. The result is the memory, the pointer in `*head`
and the returned pointer. -/
def Mem.remove_file_loop : Nat → Heap → Option Nat → Option Nat → Option Nat → String →
    Option (Heap × Option Nat × Option Nat)
  | 0, _, _, _, _, _ => none
  | _ + 1, h, head, _, none, _ => some (h, head, none)
  | fuel + 1, h, head, prev, some current, name =>
    if (h current).file.name = name then
      match prev with
      | none => some ((h.set_next current none), (h current).next, some current)
      | some p =>
        some (((h.set_next p (h current).next).set_next current none), head, some current)
    else Mem.remove_file_loop fuel h head (some current) (h current).next name

/-- Source `remove_file` on linked nodes: `current = *head`, `prev = NULL`, then the
loop. -/
def Mem.remove_file (fuel : Nat) (h : Heap) (head : Option Nat) (name : String) :
    Option (Heap × Option Nat × Option Nat) :=
  Mem.remove_file_loop fuel h head none head name

/-- Source `insert_file` on linked nodes: `node->next = *head; *head = node`. -/
def Mem.insert_file (h : Heap) (head : Option Nat) (node : Nat) : Heap × Option Nat :=
  (h.set_next node head, some node)

/-- The second loop of `cmd_scan` on linked nodes, at most `fuel` iterations, each inner
`remove_file` with `inner` iterations at most. The last argument is not a program
variable: it records the addresses that `current` has taken, in order. -/
def Mem.scan_move (inner : Nat) : Nat → Heap → Option Nat → Option Nat → Option Nat →
    List Nat → Run (Heap × Option Nat × Option Nat × List Nat)
  | 0, _, _, _, _, _ => Run.no_fuel
  | _ + 1, h, clean, suspect, none, visited => Run.ok (h, clean, suspect, visited)
  | fuel + 1, h, clean, suspect, some current, visited =>
    if (h current).file.is_suspicious then
      match Mem.remove_file inner h clean (h current).file.name with
      | none => Run.no_fuel
      | some (_, _, none) => Run.null_deref
      | some (h1, clean1, some removed) =>
        Mem.scan_move inner fuel (Mem.insert_file h1 suspect removed).1 clean1
          (Mem.insert_file h1 suspect removed).2 (h current).next (visited ++ [current])
    else Mem.scan_move inner fuel h clean suspect (h current).next (visited ++ [current])

/-- The pointer `p` heads the `NULL`-terminated chain of the nodes at the addresses `as`,
in this order. -/
def Chain (h : Heap) : Option Nat → List Nat → Prop
  | p, [] => p = none
  | p, a :: as => p = some a ∧ Chain h (h a).next as

/-- The pointer `p` heads the chain of the nodes at the addresses `as`, the last of which
points to `q`. -/
def Seg (h : Heap) : Option Nat → List Nat → Option Nat → Prop
  | p, [], q => p = q
  | p, a :: as, q => p = some a ∧ Seg h (h a).next as q

/-- The records stored at a list of addresses. -/
def recs (h : Heap) (as : List Nat) : List FileRec :=
  as.map (fun a => (h a).file)

/-- A memory with the clean chain 1, 2, 3 and the suspect chain 4. The nodes 1 and 2
bear the same name, node 1 is not flagged and nodes 2 and 3 are. -/
def sample_heap : Heap := fun a =>
  match a with
  | 1 => { file := ⟨"x", 10, false⟩, next := some 2 }
  | 2 => { file := ⟨"x", 20, true⟩, next := some 3 }
  | 3 => { file := ⟨"y", 30, true⟩, next := none }
  | _ => { file := ⟨"z", 40, true⟩, next := none }

/-- What is read off a finished run: the nodes at the given addresses, the two list
heads and the addresses visited. -/
def Run.view (addrs : List Nat) :
    Run (Heap × Option Nat × Option Nat × List Nat) →
      Option (List Cell × Option Nat × Option Nat × List Nat)
  | Run.ok (h, clean, suspect, visited) => some (addrs.map h, clean, suspect, visited)
  | Run.null_deref => none
  | Run.no_fuel => none

/-! ## Lemmas on the C library embedding -/

theorem strstr_chars_isSome (hay needle : List Char) :
    (strstr_chars hay needle).isSome = true ↔ needle <:+: hay := by
  induction hay with
  | nil =>
    cases needle with
    | nil => simp [strstr_chars]
    | cons a t => simp [strstr_chars, List.isPrefixOf]
  | cons c cs ih =>
    unfold strstr_chars
    by_cases hp : needle.isPrefixOf (c :: cs) = true
    · rw [if_pos hp]
      have : needle <+: c :: cs := List.isPrefixOf_iff_prefix.mp hp
      simpa using this.isInfix
    · rw [if_neg hp, ih, List.infix_cons_iff]
      have : ¬ needle <+: c :: cs := fun h => hp (List.isPrefixOf_iff_prefix.mpr h)
      constructor
      · exact fun h => Or.inr h
      · rintro (h | h)
        · exact absurd h this
        · exact h

theorem strstr_isSome (haystack needle : String) :
    (strstr haystack needle).isSome = true ↔ needle.data <:+: haystack.data :=
  strstr_chars_isSome _ _

/-! ## Lemmas on the list primitives -/

theorem find_file_eq_none {l : List FileRec} {name : String} :
    find_file l name = none ↔ ∀ r ∈ l, r.name ≠ name := by
  induction l with
  | nil => simp [find_file]
  | cons a t ih =>
    unfold find_file
    by_cases h : a.name = name
    · simp [h]
    · simp [h, ih]

theorem find_file_isSome {l : List FileRec} {name : String} :
    (find_file l name).isSome = true ↔ ∃ r ∈ l, r.name = name := by
  rw [← Option.ne_none_iff_isSome, Ne, find_file_eq_none]
  push_neg
  rfl

theorem find_file_isSome_names {l : List FileRec} {name : String} :
    (find_file l name).isSome = true ↔ name ∈ names l := by
  rw [find_file_isSome]
  simp [names]

theorem find_file_some {l : List FileRec} {name : String} {r : FileRec}
    (h : find_file l name = some r) : r ∈ l ∧ r.name = name := by
  induction l with
  | nil => simp [find_file] at h
  | cons a t ih =>
    unfold find_file at h
    by_cases hn : a.name = name
    · rw [if_pos hn] at h
      cases h
      exact ⟨List.mem_cons_self _ _, hn⟩
    · rw [if_neg hn] at h
      exact ⟨List.mem_cons_of_mem _ (ih h).1, (ih h).2⟩

theorem remove_file_fst (l : List FileRec) (name : String) :
    (remove_file l name).1 = find_file l name := by
  induction l with
  | nil => rfl
  | cons a t ih =>
    unfold remove_file find_file
    by_cases hn : a.name = name
    · simp [hn]
    · simp [hn, ih]

theorem remove_file_absent {l : List FileRec} {name : String}
    (h : ∀ r ∈ l, r.name ≠ name) : remove_file l name = (none, l) := by
  induction l with
  | nil => rfl
  | cons a t ih =>
    have ha : a.name ≠ name := h a (List.mem_cons_self _ _)
    have ht := ih (fun r hr => h r (List.mem_cons_of_mem _ hr))
    unfold remove_file
    rw [if_neg ha, ht]

theorem remove_file_append {pre post : List FileRec} {r : FileRec} {name : String}
    (hpre : ∀ x ∈ pre, x.name ≠ name) (hr : r.name = name) :
    remove_file (pre ++ r :: post) name = (some r, pre ++ post) := by
  induction pre with
  | nil => simp [remove_file, hr]
  | cons a t ih =>
    have ha : a.name ≠ name := hpre a (List.mem_cons_self _ _)
    have ht := ih (fun x hx => hpre x (List.mem_cons_of_mem _ hx))
    simp only [List.cons_append]
    unfold remove_file
    rw [if_neg ha, ht]

theorem find_file_split {l : List FileRec} {name : String} {r : FileRec}
    (h : find_file l name = some r) :
    ∃ pre post, l = pre ++ r :: post ∧ (∀ x ∈ pre, x.name ≠ name) ∧ r.name = name := by
  induction l with
  | nil => simp [find_file] at h
  | cons a t ih =>
    unfold find_file at h
    by_cases hn : a.name = name
    · rw [if_pos hn] at h
      cases h
      exact ⟨[], t, rfl, by simp, hn⟩
    · rw [if_neg hn] at h
      obtain ⟨pre, post, h1, h2, h3⟩ := ih h
      refine ⟨a :: pre, post, by simp [h1], ?_, h3⟩
      intro x hx
      rcases List.mem_cons.mp hx with rfl | hx
      · exact hn
      · exact h2 x hx

theorem remove_file_present {l : List FileRec} {name : String} {r : FileRec}
    (h : find_file l name = some r) :
    ∃ pre post, l = pre ++ r :: post ∧ (∀ x ∈ pre, x.name ≠ name) ∧ r.name = name ∧
      remove_file l name = (some r, pre ++ post) := by
  obtain ⟨pre, post, h1, h2, h3⟩ := find_file_split h
  exact ⟨pre, post, h1, h2, h3, by rw [h1]; exact remove_file_append h2 h3⟩

theorem free_file_list_eq (l : List FileRec) : free_file_list l = [] := by
  induction l with
  | nil => rfl
  | cons a t ih => simpa [free_file_list] using ih

theorem free_signature_list_eq (l : List Sig) : free_signature_list l = [] := by
  induction l with
  | nil => rfl
  | cons a t ih => simpa [free_signature_list] using ih

theorem count_files_eq (l : List FileRec) : count_files l = l.length := by
  induction l with
  | nil => rfl
  | cons a t ih => simp [count_files, ih]

/-! ## Lemmas on the two loops of the scan -/

theorem scan_first_match_isSome (name : String) (sigs : List Sig) :
    (scan_first_match name sigs).isSome = true ↔ name_matches sigs name := by
  induction sigs with
  | nil => simp [scan_first_match, name_matches]
  | cons a t ih =>
    unfold scan_first_match
    by_cases h : (strstr name a.pattern).isSome = true
    · rw [if_pos h]
      simp only [Option.isSome_some, true_iff]
      exact ⟨a, List.mem_cons_self _ _, (strstr_isSome _ _).mp h⟩
    · rw [if_neg h, ih]
      have hn : ¬ a.pattern.data <:+: name.data := fun hh => h ((strstr_isSome _ _).mpr hh)
      simp only [name_matches, List.mem_cons, exists_eq_or_imp, hn, false_or]

theorem scan_first_match_eq_none (name : String) (sigs : List Sig) :
    scan_first_match name sigs = none ↔ ¬ name_matches sigs name := by
  rw [← scan_first_match_isSome]
  cases scan_first_match name sigs <;> simp

theorem scan_mark_fst (sigs : List Sig) (l : List FileRec) (c : Nat) :
    (scan_mark sigs l c).1 = l.map (mark sigs) := by
  induction l generalizing c with
  | nil => rfl
  | cons a t ih =>
    unfold scan_mark
    cases h : scan_first_match a.name sigs with
    | none =>
      have hm : ¬ name_matches sigs a.name := (scan_first_match_eq_none _ _).mp h
      simp [ih, mark, hm]
    | some x =>
      have hm : name_matches sigs a.name := by
        rw [← scan_first_match_isSome, h]; rfl
      simp [ih, mark, hm, flagged]

theorem scan_mark_snd (sigs : List Sig) (l : List FileRec) (c : Nat) :
    (scan_mark sigs l c).2
      = c + (l.filter (fun r => decide (name_matches sigs r.name))).length := by
  induction l generalizing c with
  | nil => rfl
  | cons a t ih =>
    unfold scan_mark
    cases h : scan_first_match a.name sigs with
    | none =>
      have hm : ¬ name_matches sigs a.name := (scan_first_match_eq_none _ _).mp h
      simp [ih, hm]
    | some x =>
      have hm : name_matches sigs a.name := by
        rw [← scan_first_match_isSome, h]; rfl
      simp [ih, hm]
      omega

theorem names_map_mark (sigs : List Sig) (l : List FileRec) :
    names (l.map (mark sigs)) = names l := by
  induction l with
  | nil => rfl
  | cons a t ih =>
    simp only [names, List.map_cons, List.cons.injEq] at ih ⊢
    refine ⟨?_, ih⟩
    unfold mark flagged
    split <;> rfl

theorem filter_flag_map_mark (sigs : List Sig) (l : List FileRec)
    (h : ∀ r ∈ l, r.is_suspicious = false) :
    (l.map (mark sigs)).filter (fun r => r.is_suspicious)
      = (l.filter (fun r => decide (name_matches sigs r.name))).map flagged := by
  induction l with
  | nil => rfl
  | cons a t ih =>
    have ha := h a (List.mem_cons_self _ _)
    have ht := ih (fun r hr => h r (List.mem_cons_of_mem _ hr))
    by_cases hm : name_matches sigs a.name
    · simp [mark, hm, flagged, List.filter_cons] at ht ⊢
      exact ht
    · simp [mark, hm, ha, List.filter_cons] at ht ⊢
      exact ht

theorem filter_unflag_map_mark (sigs : List Sig) (l : List FileRec)
    (h : ∀ r ∈ l, r.is_suspicious = false) :
    (l.map (mark sigs)).filter (fun r => !r.is_suspicious)
      = l.filter (fun r => !decide (name_matches sigs r.name)) := by
  induction l with
  | nil => rfl
  | cons a t ih =>
    have ha := h a (List.mem_cons_self _ _)
    have ht := ih (fun r hr => h r (List.mem_cons_of_mem _ hr))
    by_cases hm : name_matches sigs a.name
    · simp [mark, hm, flagged, List.filter_cons] at ht ⊢
      exact ht
    · simp [mark, hm, ha, List.filter_cons] at ht ⊢
      exact ht

theorem scan_move_nodup (rest pre suspect : List FileRec)
    (h : (names (pre ++ rest)).Nodup) :
    scan_move rest (pre ++ rest) suspect
      = some (pre ++ rest.filter (fun r => !r.is_suspicious),
              (rest.filter (fun r => r.is_suspicious)).reverse ++ suspect) := by
  induction rest generalizing pre suspect with
  | nil => simp [scan_move]
  | cons cur next ih =>
    unfold scan_move
    by_cases hf : cur.is_suspicious = true
    · have hpre : ∀ x ∈ pre, x.name ≠ cur.name := by
        intro x hx heq
        simp only [names, List.map_append, List.map_cons] at h
        have hd := (List.nodup_append.mp h).2.2
        exact hd (List.mem_map_of_mem _ hx) (heq ▸ List.mem_cons_self _ _)
      have hnext : (names (pre ++ next)).Nodup := by
        simp only [names, List.map_append, List.map_cons] at h ⊢
        exact h.sublist (List.Sublist.append_left (List.sublist_cons_self _ _) _)
      rw [if_pos hf, remove_file_append hpre rfl]
      simp only [insert_file]
      rw [ih pre (cur :: suspect) hnext]
      simp [List.filter_cons, hf]
    · have hnext : (names ((pre ++ [cur]) ++ next)).Nodup := by simpa using h
      have := ih (pre ++ [cur]) suspect hnext
      rw [if_neg hf]
      simp only [List.append_assoc, List.singleton_append] at this
      rw [this]
      simp [List.filter_cons, hf]

/-! ## The scan on a well-formed state -/

theorem cmd_scan_empty (s : State) (h : s.signature_list = []) :
    cmd_scan s = some (s, Msg.nothing_to_scan) := by
  unfold cmd_scan
  rw [h]

theorem cmd_scan_eq (s : State) (hsig : s.signature_list ≠ [])
    (hnd : (names s.clean_list).Nodup) (hfl : ∀ r ∈ s.clean_list, r.is_suspicious = false) :
    cmd_scan s = some (scan_result s, Msg.scan_complete (match_count s)) := by
  unfold cmd_scan
  cases hs : s.signature_list with
  | nil => exact absurd hs hsig
  | cons sig sigs =>
    have hmove := scan_move_nodup (s.clean_list.map (mark (sig :: sigs))) [] s.suspect_list
      (by simpa [names_map_mark] using hnd)
    simp only [List.nil_append] at hmove
    simp only [scan_mark_fst, scan_mark_snd, hmove]
    simp only [filter_flag_map_mark _ _ hfl, filter_unflag_map_mark _ _ hfl, scan_result,
      match_count, hs, Nat.zero_add]

theorem names_append (a b : List FileRec) : names (a ++ b) = names a ++ names b := by
  simp [names]

theorem names_perm {a b : List FileRec} (h : a.Perm b) : (names a).Perm (names b) :=
  h.map _

theorem names_map_flagged (l : List FileRec) : names (l.map flagged) = names l := by
  simp [names, flagged, Function.comp_def]

theorem scan_result_perm (s : State) :
    (names (registry (scan_result s))).Perm (names (registry s)) := by
  have hsplit : ((s.clean_list.filter
        (fun r => decide (name_matches s.signature_list r.name))) ++
      (s.clean_list.filter
        (fun r => !decide (name_matches s.signature_list r.name)))).Perm s.clean_list :=
    List.filter_append_perm _ _
  have h1 := names_perm hsplit
  rw [names_append] at h1
  simp only [registry, scan_result, names_append]
  have h2 : names ((s.clean_list.filter
      (fun r => decide (name_matches s.signature_list r.name))).map flagged).reverse
      = (names (s.clean_list.filter
          (fun r => decide (name_matches s.signature_list r.name)))).reverse := by
    simp [names, flagged, Function.comp_def]
  rw [h2]
  rw [List.perm_iff_count] at h1 ⊢
  intro a
  have := h1 a
  simp only [List.count_append, List.count_reverse] at this ⊢
  omega

theorem cmd_load_dup {s : State} {name : String} (size : Nat)
    (h : name ∈ names (registry s)) : cmd_load s name size = (s, Msg.file_exists) := by
  unfold cmd_load
  rw [if_pos]
  simp only [Bool.or_eq_true, find_file_isSome_names]
  simp only [registry, names_append, List.mem_append] at h
  exact h

theorem cmd_load_fresh {s : State} {name : String} (size : Nat)
    (h : name ∉ names (registry s)) :
    cmd_load s name size
      = ({ s with clean_list :=
            { name := name, size := size, is_suspicious := false } :: s.clean_list },
          Msg.file_loaded) := by
  unfold cmd_load
  rw [if_neg]
  · rfl
  · simp only [Bool.or_eq_true, find_file_isSome_names]
    simp only [registry, names_append, List.mem_append] at h
    exact h

/-! ## The invariant along command sequences -/

theorem inv_initial : Inv initial :=
  ⟨by simp [registry, initial, names], by simp [initial], by simp [initial], by simp [initial]⟩

theorem inv_clean_nodup {s : State} (h : Inv s) : (names s.clean_list).Nodup := by
  have := h.nodup
  simp only [registry, names_append, List.append_assoc] at this
  exact (List.nodup_append.mp this).1

theorem inv_cmd_scan {s s' : State} {m : Msg} (h : Inv s) (hs : cmd_scan s = some (s', m)) :
    Inv s' := by
  by_cases hsig : s.signature_list = []
  · rw [cmd_scan_empty s hsig] at hs
    cases hs
    exact h
  · rw [cmd_scan_eq s hsig (inv_clean_nodup h) h.clean_unflagged] at hs
    cases hs
    refine ⟨(scan_result_perm s).nodup_iff.mpr h.nodup, ?_, ?_, h.quarantine_flagged⟩
    · intro r hr
      exact h.clean_unflagged r (List.mem_of_mem_filter hr)
    · intro r hr
      simp only [scan_result, List.mem_append, List.mem_reverse, List.mem_map] at hr
      rcases hr with ⟨x, _, rfl⟩ | hr
      · rfl
      · exact h.suspect_flagged r hr

theorem inv_cmd_load {s : State} (h : Inv s) (name : String) (size : Nat) :
    Inv (cmd_load s name size).1 := by
  by_cases hc : name ∈ names (registry s)
  · rw [cmd_load_dup size hc]
    exact h
  · rw [cmd_load_fresh size hc]
    refine ⟨?_, ?_, h.suspect_flagged, h.quarantine_flagged⟩
    · have hn := h.nodup
      simp only [registry, names, List.map_cons, List.cons_append] at hn hc ⊢
      exact List.nodup_cons.mpr ⟨hc, hn⟩
    · intro r hr
      rcases List.mem_cons.mp hr with rfl | hr
      · rfl
      · exact h.clean_unflagged r hr

theorem inv_cmd_quarantine {s : State} (h : Inv s) (name : String) :
    Inv (cmd_quarantine s name).1 := by
  unfold cmd_quarantine
  cases hf : find_file s.suspect_list name with
  | none =>
    rw [remove_file_absent (find_file_eq_none.mp hf)]
    exact h
  | some r =>
    obtain ⟨pre, post, h1, _, _, h4⟩ := remove_file_present hf
    rw [h4]
    simp only [insert_file]
    have hn := h.nodup
    have hsf := h.suspect_flagged
    rw [h1] at hsf
    refine ⟨?_, h.clean_unflagged, ?_, ?_⟩
    · simp only [registry, h1] at hn ⊢
      refine (List.Perm.nodup_iff (names_perm ?_)).mpr hn
      rw [List.perm_iff_count]
      intro a
      simp only [List.count_append, List.count_cons]
      omega
    · intro x hx
      exact hsf x (by
        rcases List.mem_append.mp hx with hx | hx
        · exact List.mem_append_left _ hx
        · exact List.mem_append_right _ (List.mem_cons_of_mem _ hx))
    · intro x hx
      rcases List.mem_cons.mp hx with rfl | hx
      · exact hsf x (by simp)
      · exact h.quarantine_flagged x hx

theorem inv_cmd_restore {s : State} (h : Inv s) (name : String) :
    Inv (cmd_restore s name).1 := by
  unfold cmd_restore
  cases hf : find_file s.quarantine_list name with
  | none =>
    rw [remove_file_absent (find_file_eq_none.mp hf)]
    exact h
  | some r =>
    obtain ⟨pre, post, h1, _, _, h4⟩ := remove_file_present hf
    rw [h4]
    simp only [insert_file]
    have hn := h.nodup
    have hqf := h.quarantine_flagged
    rw [h1] at hqf
    refine ⟨?_, ?_, h.suspect_flagged, ?_⟩
    · simp only [registry, h1] at hn ⊢
      refine (List.Perm.nodup_iff ?_).mpr hn
      simp only [names, List.map_append, List.map_cons, List.cons_append]
      rw [List.perm_iff_count]
      intro a
      simp only [List.count_append, List.count_cons]
      omega
    · intro x hx
      rcases List.mem_cons.mp hx with rfl | hx
      · rfl
      · exact h.clean_unflagged x hx
    · intro x hx
      exact hqf x (by
        rcases List.mem_append.mp hx with hx | hx
        · exact List.mem_append_left _ hx
        · exact List.mem_append_right _ (List.mem_cons_of_mem _ hx))

theorem inv_cmd_purge (s : State) : Inv (cmd_purge s).1 := by
  simp only [cmd_purge, free_file_list_eq, free_signature_list_eq]
  exact inv_initial

theorem inv_cmd_add_sig {s : State} (h : Inv s) (pattern : String) :
    Inv (cmd_add_sig s pattern).1 := by
  unfold cmd_add_sig
  split
  · exact h
  · exact ⟨h.nodup, h.clean_unflagged, h.suspect_flagged, h.quarantine_flagged⟩

theorem inv_cmd_del_sig {s : State} (h : Inv s) (pattern : String) :
    Inv (cmd_del_sig s pattern).1 := by
  unfold cmd_del_sig
  split <;> exact ⟨h.nodup, h.clean_unflagged, h.suspect_flagged, h.quarantine_flagged⟩

theorem inv_exec {s s' : State} {m : Msg} (c : Cmd) (h : Inv s)
    (hs : exec s c = some (s', m)) : Inv s' := by
  cases c with
  | scan => exact inv_cmd_scan h hs
  | add_sig p =>
    simp only [exec, Option.some.injEq] at hs
    rw [show s' = _ from (congrArg Prod.fst hs).symm]
    exact inv_cmd_add_sig h p
  | del_sig p =>
    simp only [exec, Option.some.injEq] at hs
    rw [show s' = _ from (congrArg Prod.fst hs).symm]
    exact inv_cmd_del_sig h p
  | load n z =>
    simp only [exec, Option.some.injEq] at hs
    rw [show s' = _ from (congrArg Prod.fst hs).symm]
    exact inv_cmd_load h n z
  | quarantine n =>
    simp only [exec, Option.some.injEq] at hs
    rw [show s' = _ from (congrArg Prod.fst hs).symm]
    exact inv_cmd_quarantine h n
  | restore n =>
    simp only [exec, Option.some.injEq] at hs
    rw [show s' = _ from (congrArg Prod.fst hs).symm]
    exact inv_cmd_restore h n
  | purge =>
    simp only [exec, Option.some.injEq] at hs
    rw [show s' = _ from (congrArg Prod.fst hs).symm]
    exact inv_cmd_purge s

theorem reachable_inv {s : State} (h : Reachable s) : Inv s := by
  induction h with
  | start => exact inv_initial
  | step c _ hs ih => exact inv_exec c ih hs

theorem reachable_of_run (cs : List Cmd) {s s' : State} (hr : Reachable s)
    (h : run s cs = some s') : Reachable s' := by
  induction cs generalizing s with
  | nil => simp only [run, Option.some.injEq] at h; exact h ▸ hr
  | cons c cs ih =>
    unfold run at h
    cases he : exec s c with
    | none => rw [he] at h; cases h
    | some p =>
      obtain ⟨s1, m⟩ := p
      rw [he] at h
      exact ih (Reachable.step c hr he) h

theorem sample_loaded_reachable : Reachable sample_loaded :=
  reachable_of_run [Cmd.add_sig "virus", Cmd.load "virus1.exe" 10, Cmd.load "virus2.exe" 20,
    Cmd.load "readme.txt" 50] Reachable.start (by decide)

theorem sample_scanned_reachable : Reachable sample_scanned :=
  reachable_of_run [Cmd.scan] sample_loaded_reachable (by decide)

theorem sample_quarantined_reachable : Reachable sample_quarantined :=
  reachable_of_run [Cmd.quarantine "virus1.exe"] sample_scanned_reachable (by decide)

/-! ## Partitions of a well-formed state do not share names -/

theorem names_disjoint {a b : List FileRec} (h : (names (a ++ b)).Nodup) {x y : FileRec}
    (hx : x ∈ a) (hy : y ∈ b) : x.name ≠ y.name := by
  rw [names_append] at h
  intro heq
  exact (List.nodup_append.mp h).2.2 (List.mem_map_of_mem _ hx)
    (heq ▸ List.mem_map_of_mem (fun r : FileRec => r.name) hy)

theorem names_unique {l : List FileRec} (h : (names l).Nodup) {x y : FileRec}
    (hx : x ∈ l) (hy : y ∈ l) (heq : x.name = y.name) : x = y :=
  List.inj_on_of_nodup_map h hx hy heq

theorem inv_clean_suspect {s : State} (h : Inv s) {x y : FileRec}
    (hx : x ∈ s.clean_list) (hy : y ∈ s.suspect_list) : x.name ≠ y.name := by
  have hn := h.nodup
  simp only [registry, names_append] at hn
  have h2 : (names (s.clean_list ++ s.suspect_list)).Nodup := by
    rw [names_append]; exact (List.nodup_append.mp hn).1
  exact names_disjoint h2 hx hy

theorem inv_clean_quarantine {s : State} (h : Inv s) {x y : FileRec}
    (hx : x ∈ s.clean_list) (hy : y ∈ s.quarantine_list) : x.name ≠ y.name :=
  names_disjoint h.nodup (List.mem_append_left _ hx) hy

theorem inv_suspect_quarantine {s : State} (h : Inv s) {x y : FileRec}
    (hx : x ∈ s.suspect_list) (hy : y ∈ s.quarantine_list) : x.name ≠ y.name :=
  names_disjoint h.nodup (List.mem_append_right _ hx) hy

theorem inv_suspect_nodup {s : State} (h : Inv s) : (names s.suspect_list).Nodup := by
  have hn := h.nodup
  simp only [registry, names_append] at hn
  exact (List.nodup_append.mp (List.nodup_append.mp hn).1).2.1

theorem inv_quarantine_nodup {s : State} (h : Inv s) : (names s.quarantine_list).Nodup := by
  have hn := h.nodup
  simp only [registry, names_append] at hn
  exact (List.nodup_append.mp hn).2.1

/-! ## Quarantine and restore, by cases on the lookup -/

theorem cmd_quarantine_absent {s : State} {name : String}
    (h : ∀ x ∈ s.suspect_list, x.name ≠ name) :
    cmd_quarantine s name = (s, Msg.not_in_suspect) := by
  unfold cmd_quarantine
  rw [remove_file_absent h]

theorem cmd_quarantine_present {s : State} {name : String} {pre post : List FileRec}
    {r : FileRec} (hs : s.suspect_list = pre ++ r :: post)
    (hpre : ∀ x ∈ pre, x.name ≠ name) (hr : r.name = name) :
    cmd_quarantine s name
      = ({ s with suspect_list := pre ++ post, quarantine_list := r :: s.quarantine_list },
          Msg.quarantined) := by
  unfold cmd_quarantine
  rw [hs, remove_file_append hpre hr]
  rfl

theorem cmd_restore_absent {s : State} {name : String}
    (h : ∀ x ∈ s.quarantine_list, x.name ≠ name) :
    cmd_restore s name = (s, Msg.not_in_quarantine) := by
  unfold cmd_restore
  rw [remove_file_absent h]

theorem cmd_restore_present {s : State} {name : String} {pre post : List FileRec}
    {r : FileRec} (hs : s.quarantine_list = pre ++ r :: post)
    (hpre : ∀ x ∈ pre, x.name ≠ name) (hr : r.name = name) :
    cmd_restore s name
      = ({ s with quarantine_list := pre ++ post,
                  clean_list := { r with is_suspicious := false } :: s.clean_list },
          Msg.restored) := by
  unfold cmd_restore
  rw [hs, remove_file_append hpre hr]
  rfl

theorem exists_first_named {l : List FileRec} {name : String}
    (h : ∃ r ∈ l, r.name = name) :
    ∃ pre r post, l = pre ++ r :: post ∧ (∀ x ∈ pre, x.name ≠ name) ∧ r.name = name := by
  have hs := find_file_isSome.mpr h
  cases hf : find_file l name with
  | none => rw [hf] at hs; cases hs
  | some r =>
    obtain ⟨pre, post, h1, h2, h3⟩ := find_file_split hf
    exact ⟨pre, r, post, h1, h2, h3⟩

/-! ## The scan returns in every state

The second loop never receives `NULL` from `remove_file`: the part of the chain still to
be walked is always a tail of the clean list, so the record under `current` is found. -/

theorem remove_first_keeps_suffix {pre next p q : List FileRec} {cur r : FileRec}
    (hs : pre ++ cur :: next = p ++ r :: q) (hp : ∀ x ∈ p, x.name ≠ cur.name) :
    ∃ pre', p ++ q = pre' ++ next := by
  rcases List.append_eq_append_iff.mp hs with ⟨a, ha, hb⟩ | ⟨c, hc, hd⟩
  · cases a with
    | nil =>
      simp only [List.nil_append, List.cons.injEq] at hb
      exact ⟨pre, by rw [ha, hb.2]; simp⟩
    | cons x a =>
      simp only [List.cons_append, List.cons.injEq] at hb
      exact absurd rfl (hp cur (by rw [ha, hb.1]; simp))
  · cases c with
    | nil =>
      simp only [List.nil_append, List.cons.injEq] at hd
      exact ⟨pre, by rw [hc, hd.2]; simp⟩
    | cons x c =>
      simp only [List.cons_append, List.cons.injEq] at hd
      exact ⟨p ++ c ++ [cur], by rw [hd.2]; simp⟩

theorem scan_move_isSome (rest pre suspect : List FileRec) :
    (scan_move rest (pre ++ rest) suspect).isSome = true := by
  induction rest generalizing pre suspect with
  | nil => simp [scan_move]
  | cons cur next ih =>
    unfold scan_move
    by_cases hf : cur.is_suspicious = true
    · rw [if_pos hf]
      obtain ⟨p, r, q, hs, hp, hr⟩ :=
        @exists_first_named (pre ++ cur :: next) cur.name ⟨cur, by simp, rfl⟩
      obtain ⟨pre', hpre'⟩ := remove_first_keeps_suffix hs hp
      rw [hs, remove_file_append hp hr]
      simp only
      rw [hpre']
      exact ih pre' _
    · rw [if_neg hf]
      have := ih (pre ++ [cur]) suspect
      simpa using this

theorem cmd_scan_isSome (s : State) : (cmd_scan s).isSome = true := by
  unfold cmd_scan
  cases hs : s.signature_list with
  | nil => rfl
  | cons sig sigs =>
    have h := scan_move_isSome (scan_mark (sig :: sigs) s.clean_list 0).1 []
      s.suspect_list
    simp only [List.nil_append] at h
    cases hm : scan_move (scan_mark (sig :: sigs) s.clean_list 0).1
        (scan_mark (sig :: sigs) s.clean_list 0).1 s.suspect_list with
    | none => rw [hm] at h; cases h
    | some p =>
      obtain ⟨c, q⟩ := p
      simp [hm]

/-! ## Aggregates -/

theorem total_bytes_loop_eq (l : List FileRec) (total : Nat)
    (ht : total < 2 ^ SIZE_BITS) :
    total_bytes_loop l total = (total + size_sum l) % 2 ^ SIZE_BITS := by
  induction l generalizing total with
  | nil => simp [total_bytes_loop, size_sum, Nat.mod_eq_of_lt ht]
  | cons a t ih =>
    have hpos : 0 < 2 ^ SIZE_BITS := Nat.two_pow_pos _
    unfold total_bytes_loop
    rw [ih _ (Nat.mod_lt _ hpos)]
    simp only [size_sum, List.map_cons, List.sum_cons]
    rw [Nat.mod_add_mod, Nat.add_assoc]

theorem sample_big_reachable : Reachable sample_big :=
  reachable_of_run [Cmd.load "a" 18446744073709551615, Cmd.load "b" 1] Reachable.start
    (by decide)

/-! ## The signature list -/

theorem find_signature_eq_none {l : List Sig} {pattern : String} :
    find_signature l pattern = none ↔ ∀ g ∈ l, g.pattern ≠ pattern := by
  induction l with
  | nil => simp [find_signature]
  | cons a t ih =>
    unfold find_signature
    by_cases h : a.pattern = pattern
    · simp [h]
    · simp [h, ih]

theorem remove_signature_absent {l : List Sig} {pattern : String}
    (h : ∀ g ∈ l, g.pattern ≠ pattern) : remove_signature l pattern = (none, l) := by
  induction l with
  | nil => rfl
  | cons a t ih =>
    have ha : a.pattern ≠ pattern := h a (List.mem_cons_self _ _)
    have ht := ih (fun g hg => h g (List.mem_cons_of_mem _ hg))
    unfold remove_signature
    rw [if_neg ha, ht]

theorem remove_signature_append {pre post : List Sig} {g : Sig} {pattern : String}
    (hpre : ∀ x ∈ pre, x.pattern ≠ pattern) (hg : g.pattern = pattern) :
    remove_signature (pre ++ g :: post) pattern = (some g, pre ++ post) := by
  induction pre with
  | nil => simp [remove_signature, hg]
  | cons a t ih =>
    have ha : a.pattern ≠ pattern := hpre a (List.mem_cons_self _ _)
    have ht := ih (fun x hx => hpre x (List.mem_cons_of_mem _ hx))
    simp only [List.cons_append]
    unfold remove_signature
    rw [if_neg ha, ht]

theorem exists_first_signature {l : List Sig} {pattern : String}
    (h : ∃ g ∈ l, g.pattern = pattern) :
    ∃ pre g post, l = pre ++ g :: post ∧ (∀ x ∈ pre, x.pattern ≠ pattern) ∧
      g.pattern = pattern := by
  induction l with
  | nil => simp at h
  | cons a t ih =>
    by_cases ha : a.pattern = pattern
    · exact ⟨[], a, t, rfl, by simp, ha⟩
    · obtain ⟨g, hg, hgp⟩ := h
      rcases List.mem_cons.mp hg with rfl | hg
      · exact absurd hgp ha
      · obtain ⟨pre, g', post, h1, h2, h3⟩ := ih ⟨g, hg, hgp⟩
        refine ⟨a :: pre, g', post, by simp [h1], ?_, h3⟩
        intro x hx
        rcases List.mem_cons.mp hx with rfl | hx
        · exact ha
        · exact h2 x hx

theorem cmd_add_sig_dup {s : State} {pattern : String}
    (h : ∃ g ∈ s.signature_list, g.pattern = pattern) :
    cmd_add_sig s pattern = (s, Msg.sig_exists) := by
  unfold cmd_add_sig
  cases hf : find_signature s.signature_list pattern with
  | some g => rfl
  | none =>
    obtain ⟨g, hg, hgp⟩ := h
    exact absurd hgp (find_signature_eq_none.mp hf g hg)

theorem cmd_add_sig_fresh {s : State} {pattern : String}
    (h : ∀ g ∈ s.signature_list, g.pattern ≠ pattern) :
    cmd_add_sig s pattern
      = ({ s with signature_list := { pattern := pattern } :: s.signature_list },
          Msg.sig_added) := by
  unfold cmd_add_sig
  rw [find_signature_eq_none.mpr h]
  rfl

theorem cmd_del_sig_absent {s : State} {pattern : String}
    (h : ∀ g ∈ s.signature_list, g.pattern ≠ pattern) :
    cmd_del_sig s pattern = (s, Msg.sig_not_found) := by
  unfold cmd_del_sig
  rw [remove_signature_absent h]

theorem cmd_del_sig_present {s : State} {pattern : String} {pre post : List Sig} {g : Sig}
    (hs : s.signature_list = pre ++ g :: post)
    (hpre : ∀ x ∈ pre, x.pattern ≠ pattern) (hg : g.pattern = pattern) :
    cmd_del_sig s pattern = ({ s with signature_list := pre ++ post }, Msg.sig_removed) := by
  unfold cmd_del_sig
  rw [hs, remove_signature_append hpre hg]

theorem cmd_scan_frame {s s' : State} {m : Msg} (hs : cmd_scan s = some (s', m)) :
    s'.signature_list = s.signature_list ∧ s'.quarantine_list = s.quarantine_list := by
  unfold cmd_scan at hs
  split at hs
  · simp only [Option.some.injEq, Prod.mk.injEq] at hs
    rw [← hs.1]
    exact ⟨rfl, rfl⟩
  · rename_i sig sigs heq
    simp only at hs
    split at hs
    · simp only [Option.some.injEq, Prod.mk.injEq] at hs
      rw [← hs.1]
      exact ⟨rfl, rfl⟩
    · cases hs

theorem patterns_nodup_exec {s s' : State} {m : Msg} (c : Cmd)
    (h : (patterns s.signature_list).Nodup) (hs : exec s c = some (s', m)) :
    (patterns s'.signature_list).Nodup := by
  cases c with
  | add_sig p =>
    simp only [exec, Option.some.injEq] at hs
    rw [show s' = _ from (congrArg Prod.fst hs).symm]
    by_cases hex : ∃ g ∈ s.signature_list, g.pattern = p
    · rw [cmd_add_sig_dup hex]
      exact h
    · push_neg at hex
      rw [cmd_add_sig_fresh hex]
      simp only [patterns, List.map_cons, List.nodup_cons, List.mem_map, not_exists, not_and]
      exact ⟨fun g hg => hex g hg, h⟩
  | del_sig p =>
    simp only [exec, Option.some.injEq] at hs
    rw [show s' = _ from (congrArg Prod.fst hs).symm]
    by_cases hex : ∃ g ∈ s.signature_list, g.pattern = p
    · obtain ⟨pre, g, post, h1, h2, h3⟩ := exists_first_signature hex
      rw [cmd_del_sig_present h1 h2 h3]
      rw [h1] at h
      simp only [patterns, List.map_append, List.map_cons] at h ⊢
      exact h.sublist (List.Sublist.append_left (List.sublist_cons_self _ _) _)
    · push_neg at hex
      rw [cmd_del_sig_absent hex]
      exact h
  | load n z =>
    simp only [exec, Option.some.injEq] at hs
    rw [show s' = _ from (congrArg Prod.fst hs).symm]
    by_cases hc : n ∈ names (registry s)
    · rw [cmd_load_dup z hc]; exact h
    · rw [cmd_load_fresh z hc]; exact h
  | scan =>
    rw [(cmd_scan_frame hs).1]
    exact h
  | quarantine n =>
    simp only [exec, Option.some.injEq] at hs
    rw [show s' = _ from (congrArg Prod.fst hs).symm]
    unfold cmd_quarantine
    split <;> exact h
  | restore n =>
    simp only [exec, Option.some.injEq] at hs
    rw [show s' = _ from (congrArg Prod.fst hs).symm]
    unfold cmd_restore
    split <;> exact h
  | purge =>
    simp only [exec, Option.some.injEq] at hs
    rw [show s' = _ from (congrArg Prod.fst hs).symm]
    simp [cmd_purge, free_signature_list_eq, patterns]

theorem reachable_patterns_nodup {s : State} (h : Reachable s) :
    (patterns s.signature_list).Nodup := by
  induction h with
  | start => simp [initial, patterns]
  | step c _ hs ih => exact patterns_nodup_exec c ih hs

theorem sample_two_sigs_reachable : Reachable sample_two_sigs :=
  reachable_of_run [Cmd.add_sig "exe", Cmd.add_sig "virus", Cmd.load "virus1.exe" 10,
    Cmd.load "setup.exe" 5, Cmd.load "readme.txt" 50] Reachable.start (by decide)

/-! ## Flags and records along one command -/

theorem pairs_append (a b : List FileRec) : pairs (a ++ b) = pairs a ++ pairs b := by
  simp [pairs]

theorem file_count_eq (s : State) : file_count s = (pairs (registry s)).length := by
  simp only [file_count, count_files_eq, registry, pairs, List.length_map, List.length_append]

theorem scan_result_pairs_perm (s : State) :
    (pairs (registry (scan_result s))).Perm (pairs (registry s)) := by
  have hsplit : ((s.clean_list.filter
        (fun r => decide (name_matches s.signature_list r.name))) ++
      (s.clean_list.filter
        (fun r => !decide (name_matches s.signature_list r.name)))).Perm s.clean_list :=
    List.filter_append_perm _ _
  have h1 : (pairs _).Perm (pairs _) := hsplit.map _
  rw [pairs_append] at h1
  simp only [registry, scan_result, pairs_append]
  have h2 : pairs ((s.clean_list.filter
      (fun r => decide (name_matches s.signature_list r.name))).map flagged).reverse
      = (pairs (s.clean_list.filter
          (fun r => decide (name_matches s.signature_list r.name)))).reverse := by
    simp [pairs, flagged, Function.comp_def]
  rw [h2]
  rw [List.perm_iff_count] at h1 ⊢
  intro a
  have := h1 a
  simp only [List.count_append, List.count_reverse] at this ⊢
  omega

theorem cmd_quarantine_pairs_perm (s : State) (name : String) :
    (pairs (registry (cmd_quarantine s name).1)).Perm (pairs (registry s)) := by
  by_cases hex : ∃ r ∈ s.suspect_list, r.name = name
  · obtain ⟨pre, r, post, hs, hpre, hr⟩ := exists_first_named hex
    rw [cmd_quarantine_present hs hpre hr]
    simp only [registry, hs, pairs, List.map_append, List.map_cons]
    rw [List.perm_iff_count]
    intro a
    simp only [List.count_append, List.count_cons]
    omega
  · push_neg at hex
    rw [cmd_quarantine_absent hex]

theorem cmd_restore_pairs_perm (s : State) (name : String) :
    (pairs (registry (cmd_restore s name).1)).Perm (pairs (registry s)) := by
  by_cases hex : ∃ r ∈ s.quarantine_list, r.name = name
  · obtain ⟨pre, r, post, hs, hpre, hr⟩ := exists_first_named hex
    rw [cmd_restore_present hs hpre hr]
    simp only [registry, hs, pairs, List.map_append, List.map_cons, List.cons_append]
    rw [List.perm_iff_count]
    intro a
    simp only [List.count_append, List.count_cons]
    omega
  · push_neg at hex
    rw [cmd_restore_absent hex]

theorem cmd_add_sig_registry (s : State) (p : String) :
    (cmd_add_sig s p).1.clean_list = s.clean_list ∧
    (cmd_add_sig s p).1.suspect_list = s.suspect_list ∧
    (cmd_add_sig s p).1.quarantine_list = s.quarantine_list := by
  by_cases hex : ∃ g ∈ s.signature_list, g.pattern = p
  · rw [cmd_add_sig_dup hex]
    exact ⟨rfl, rfl, rfl⟩
  · push_neg at hex
    rw [cmd_add_sig_fresh hex]
    exact ⟨rfl, rfl, rfl⟩

theorem cmd_del_sig_registry (s : State) (p : String) :
    (cmd_del_sig s p).1.clean_list = s.clean_list ∧
    (cmd_del_sig s p).1.suspect_list = s.suspect_list ∧
    (cmd_del_sig s p).1.quarantine_list = s.quarantine_list := by
  by_cases hex : ∃ g ∈ s.signature_list, g.pattern = p
  · obtain ⟨pre, g, post, h1, h2, h3⟩ := exists_first_signature hex
    rw [cmd_del_sig_present h1 h2 h3]
    exact ⟨rfl, rfl, rfl⟩
  · push_neg at hex
    rw [cmd_del_sig_absent hex]
    exact ⟨rfl, rfl, rfl⟩

theorem cmd_quarantine_clean (s : State) (name : String) :
    (cmd_quarantine s name).1.clean_list = s.clean_list := by
  unfold cmd_quarantine
  split <;> rfl

theorem clean_after_non_restore {s s' : State} {m : Msg} (c : Cmd) (h : Inv s)
    (hs : exec s c = some (s', m)) (hc : ∀ name, c ≠ Cmd.restore name) :
    ∀ r ∈ s'.clean_list, r ∈ s.clean_list ∨ r.name ∉ names (registry s) := by
  cases c with
  | restore n => exact absurd rfl (hc n)
  | add_sig p =>
    simp only [exec, Option.some.injEq] at hs
    rw [show s' = _ from (congrArg Prod.fst hs).symm, (cmd_add_sig_registry s p).1]
    exact fun r hr => Or.inl hr
  | del_sig p =>
    simp only [exec, Option.some.injEq] at hs
    rw [show s' = _ from (congrArg Prod.fst hs).symm, (cmd_del_sig_registry s p).1]
    exact fun r hr => Or.inl hr
  | load n z =>
    simp only [exec, Option.some.injEq] at hs
    rw [show s' = _ from (congrArg Prod.fst hs).symm]
    by_cases hn : n ∈ names (registry s)
    · rw [cmd_load_dup z hn]
      exact fun r hr => Or.inl hr
    · rw [cmd_load_fresh z hn]
      intro r hr
      rcases List.mem_cons.mp hr with rfl | hr
      · exact Or.inr hn
      · exact Or.inl hr
  | scan =>
    have hs' : cmd_scan s = some (s', m) := hs
    by_cases hsig : s.signature_list = []
    · rw [cmd_scan_empty s hsig] at hs'
      cases hs'
      exact fun r hr => Or.inl hr
    · rw [cmd_scan_eq s hsig (inv_clean_nodup h) h.clean_unflagged] at hs'
      cases hs'
      exact fun r hr => Or.inl (List.mem_of_mem_filter hr)
  | quarantine n =>
    simp only [exec, Option.some.injEq] at hs
    rw [show s' = _ from (congrArg Prod.fst hs).symm, cmd_quarantine_clean]
    exact fun r hr => Or.inl hr
  | purge =>
    simp only [exec, Option.some.injEq] at hs
    rw [show s' = _ from (congrArg Prod.fst hs).symm]
    simp [cmd_purge, free_file_list_eq]

theorem mem_registry {s : State} {r : FileRec} :
    r ∈ registry s ↔ r ∈ s.clean_list ∨ r ∈ s.suspect_list ∨ r ∈ s.quarantine_list := by
  simp only [registry, List.mem_append, or_assoc]

/-! ## Chains of linked nodes -/

theorem set_next_file (h : Heap) (p : Nat) (q : Option Nat) (x : Nat) :
    ((h.set_next p q) x).file = (h x).file := by
  unfold Heap.set_next
  by_cases hx : x = p
  · subst hx
    simp
  · simp [Function.update_noteq hx]

theorem set_next_other (h : Heap) (p : Nat) (q : Option Nat) {x : Nat} (hx : x ≠ p) :
    (h.set_next p q) x = h x := by
  unfold Heap.set_next
  exact Function.update_noteq hx _ _

theorem set_next_self (h : Heap) (p : Nat) (q : Option Nat) :
    ((h.set_next p q) p).next = q := by
  unfold Heap.set_next
  simp

theorem chain_frame {h h' : Heap} {p : Option Nat} {as : List Nat}
    (hc : Chain h p as) (hf : ∀ x ∈ as, h' x = h x) : Chain h' p as := by
  induction as generalizing p with
  | nil => exact hc
  | cons a t ih =>
    obtain ⟨h1, h2⟩ := hc
    refine ⟨h1, ?_⟩
    rw [hf a (List.mem_cons_self _ _)]
    exact ih h2 (fun x hx => hf x (List.mem_cons_of_mem _ hx))

theorem seg_frame {h h' : Heap} {p q : Option Nat} {as : List Nat}
    (hc : Seg h p as q) (hf : ∀ x ∈ as, h' x = h x) : Seg h' p as q := by
  induction as generalizing p with
  | nil => exact hc
  | cons a t ih =>
    obtain ⟨h1, h2⟩ := hc
    refine ⟨h1, ?_⟩
    rw [hf a (List.mem_cons_self _ _)]
    exact ih h2 (fun x hx => hf x (List.mem_cons_of_mem _ hx))

theorem chain_head {h : Heap} {p : Option Nat} {as : List Nat} (hc : Chain h p as) :
    p = as.head? := by
  cases as with
  | nil => exact hc
  | cons a t => exact hc.1

theorem chain_append {h : Heap} {p : Option Nat} {xs ys : List Nat} :
    Chain h p (xs ++ ys) ↔ Seg h p xs ys.head? ∧ Chain h ys.head? ys := by
  induction xs generalizing p with
  | nil =>
    simp only [List.nil_append, Seg]
    constructor
    · intro hc
      have := chain_head hc
      exact ⟨this, this ▸ hc⟩
    · rintro ⟨h1, h2⟩
      rw [h1]
      exact h2
  | cons a t ih =>
    show (p = some a ∧ Chain h (h a).next (t ++ ys))
      ↔ (p = some a ∧ Seg h (h a).next t ys.head?) ∧ Chain h ys.head? ys
    rw [ih, and_assoc]

theorem seg_concat {h : Heap} {p q : Option Nat} {w : List Nat} {a : Nat} :
    Seg h p (w ++ [a]) q ↔ Seg h p w (some a) ∧ (h a).next = q := by
  induction w generalizing p with
  | nil =>
    simp only [List.nil_append, Seg]
  | cons b t ih =>
    show (p = some b ∧ Seg h (h b).next (t ++ [a]) q)
      ↔ (p = some b ∧ Seg h (h b).next t (some a)) ∧ (h a).next = q
    rw [ih, and_assoc]

theorem chain_tail {h : Heap} {p : Option Nat} {a : Nat} {as : List Nat}
    (hc : Chain h p (a :: as)) : (h a).next = as.head? ∧ Chain h as.head? as := by
  have h2 := hc.2
  have := chain_head h2
  exact ⟨this, this ▸ h2⟩

theorem recs_congr {h h' : Heap} (hf : ∀ x, (h' x).file = (h x).file) (l : List Nat) :
    recs h' l = recs h l := by
  simp only [recs, hf]

theorem exists_first_address (P : Nat → Prop) {l : List Nat} (hex : ∃ x ∈ l, P x) :
    ∃ p a q, l = p ++ a :: q ∧ P a ∧ ∀ x ∈ p, ¬ P x := by
  induction l with
  | nil => simp at hex
  | cons b t ih =>
    by_cases hb : P b
    · exact ⟨[], b, t, rfl, hb, by simp⟩
    · obtain ⟨x, hx, hpx⟩ := hex
      rcases List.mem_cons.mp hx with rfl | hx
      · exact absurd hpx hb
      · obtain ⟨p, a, q, h1, h2, h3⟩ := ih ⟨x, hx, hpx⟩
        refine ⟨b :: p, a, q, by simp [h1], h2, ?_⟩
        intro y hy
        rcases List.mem_cons.mp hy with rfl | hy
        · exact hb
        · exact h3 y hy

theorem mem_remove_file_loop_found (h : Heap) (head : Option Nat) (name : String)
    (a : Nat) (q : List Nat) (ha : (h a).file.name = name) :
    ∀ (p w : List Nat) (k : Nat),
      Seg h head w (p ++ a :: q).head? → Chain h (p ++ a :: q).head? (p ++ a :: q) →
      (w ++ (p ++ a :: q)).Nodup → (∀ x ∈ p, (h x).file.name ≠ name) → p.length < k →
      ∃ h' head',
        Mem.remove_file_loop k h head w.getLast? (p ++ a :: q).head? name
          = some (h', head', some a) ∧
        Chain h' head' (w ++ (p ++ q)) ∧
        (∀ x, (h' x).file = (h x).file) ∧
        (∀ x, x ∉ w ++ (p ++ [a]) → h' x = h x) := by
  intro p
  induction p with
  | nil =>
    intro w k hseg hch hnd _ hk
    obtain ⟨k', rfl⟩ : ∃ k', k = k' + 1 := ⟨k - 1, by omega⟩
    simp only [List.nil_append, List.head?_cons] at hseg hch hnd ⊢
    have hq := chain_tail hch
    have haq : a ∉ q := by
      have := (List.nodup_append.mp hnd).2.1
      exact (List.nodup_cons.mp this).1
    have haw : a ∉ w := by
      intro hin
      exact (List.nodup_append.mp hnd).2.2 hin (List.mem_cons_self _ _)
    unfold Mem.remove_file_loop
    rw [if_pos ha]
    have hw : w = [] ∨ ∃ w' pl, w = w' ++ [pl] := by
      rcases List.eq_nil_or_concat w with hw | ⟨w', pl, hw⟩
      · exact Or.inl hw
      · exact Or.inr ⟨w', pl, by rw [hw, List.concat_eq_append]⟩
    rcases hw with rfl | ⟨w', pl, rfl⟩
    · refine ⟨h.set_next a none, (h a).next, rfl, ?_, fun x => set_next_file _ _ _ _, ?_⟩
      · rw [hq.1]
        refine chain_frame hq.2 (fun x hx => set_next_other _ _ _ ?_)
        rintro rfl
        exact haq hx
      · intro x hx
        refine set_next_other _ _ _ ?_
        rintro rfl
        exact hx (by simp)
    · have hseg' := seg_concat.mp hseg
      have hpl : pl ≠ a := by
        rintro rfl
        exact haw (by simp)
      have hplw : pl ∉ w' := by
        have := (List.nodup_append.mp (List.nodup_append.mp hnd).1).2.2
        intro hin
        exact this hin (List.mem_singleton_self _)
      have hplq : pl ∉ q := by
        intro hin
        exact (List.nodup_append.mp hnd).2.2 (by simp) (List.mem_cons_of_mem _ hin)
      have hl : (w' ++ [pl]).getLast? = some pl := by simp
      rw [hl]
      simp only
      rw [hq.1]
      have hfr : ∀ x, x ≠ a → x ≠ pl →
          ((h.set_next pl q.head?).set_next a none) x = h x := by
        intro x hxa hxp
        rw [set_next_other _ _ _ hxa, set_next_other _ _ _ hxp]
      refine ⟨(h.set_next pl q.head?).set_next a none, head, rfl, ?_,
        fun x => by rw [set_next_file, set_next_file], ?_⟩
      · rw [List.append_assoc, chain_append]
        refine ⟨?_, ?_⟩
        · show Seg _ head w' (some pl)
          refine seg_frame hseg'.1 (fun x hx => hfr x ?_ ?_)
          · rintro rfl
            exact haw (by simp [hx])
          · rintro rfl
            exact hplw hx
        · show Chain _ (some pl) (pl :: q)
          refine ⟨rfl, ?_⟩
          rw [set_next_other _ _ _ hpl, set_next_self]
          refine chain_frame hq.2 (fun x hx => hfr x ?_ ?_)
          · rintro rfl
            exact haq hx
          · rintro rfl
            exact hplq hx
      · intro x hx
        simp only [List.append_assoc, List.mem_append, List.mem_singleton, not_or] at hx
        exact hfr x hx.2.2 hx.2.1
  | cons b t ih =>
    intro w k hseg hch hnd hp hk
    obtain ⟨k', rfl⟩ : ∃ k', k = k' + 1 := ⟨k - 1, by simp at hk; omega⟩
    simp only [List.cons_append, List.head?_cons] at hseg hch ⊢
    have hb : (h b).file.name ≠ name := hp b (List.mem_cons_self _ _)
    have htl := chain_tail hch
    unfold Mem.remove_file_loop
    rw [if_neg hb, htl.1]
    have hlast : (w ++ [b]).getLast? = some b := by simp
    have := ih (w ++ [b]) k' (seg_concat.mpr ⟨hseg, htl.1⟩) htl.2
      (by simpa using hnd) (fun x hx => hp x (List.mem_cons_of_mem _ hx))
      (by simp at hk; omega)
    rw [hlast] at this
    obtain ⟨h', head', h1, h2, h3, h4⟩ := this
    refine ⟨h', head', h1, by simpa using h2, h3, ?_⟩
    intro x hx
    exact h4 x (by simpa using hx)

theorem mem_remove_file_found {h : Heap} {head : Option Nat} {name : String}
    {p q : List Nat} {a : Nat} {k : Nat} (hch : Chain h head (p ++ a :: q))
    (hnd : (p ++ a :: q).Nodup) (hp : ∀ x ∈ p, (h x).file.name ≠ name)
    (ha : (h a).file.name = name) (hk : p.length < k) :
    ∃ h' head',
      Mem.remove_file k h head name = some (h', head', some a) ∧
      Chain h' head' (p ++ q) ∧
      (∀ x, (h' x).file = (h x).file) ∧
      (∀ x, x ∉ p ++ [a] → h' x = h x) := by
  have hhead := chain_head hch
  have := mem_remove_file_loop_found h head name a q ha p [] k
    (by rw [← hhead]; rfl) (by rw [← hhead]; exact hch) (by simpa using hnd) hp hk
  simp only [List.getLast?_nil, List.nil_append, ← hhead] at this
  exact this

theorem mem_scan_move_spec (k : Nat) :
    ∀ (rest pre bs : List Nat) (h : Heap) (clean suspect : Option Nat) (visited : List Nat)
      (fuel : Nat),
      Chain h clean (pre ++ rest) → Chain h suspect bs → ((pre ++ rest) ++ bs).Nodup →
      rest.length < fuel → (pre ++ rest).length < k →
      ∃ h' clean' suspect' as' bs',
        Mem.scan_move k fuel h clean suspect rest.head? visited
          = Run.ok (h', clean', suspect', visited ++ rest) ∧
        Chain h' clean' as' ∧ Chain h' suspect' bs' ∧ (as' ++ bs').Nodup ∧
        scan_move (recs h rest) (recs h (pre ++ rest)) (recs h bs)
          = some (recs h' as', recs h' bs') := by
  intro rest
  induction rest with
  | nil =>
    intro pre bs h clean suspect visited fuel hc hs hnd hf _
    obtain ⟨f, rfl⟩ : ∃ f, fuel = f + 1 := ⟨fuel - 1, by simp at hf; omega⟩
    refine ⟨h, clean, suspect, pre, bs, ?_, by simpa using hc, hs, by simpa using hnd, ?_⟩
    · simp [Mem.scan_move]
    · simp [recs, scan_move]
  | cons c rest ih =>
    intro pre bs h clean suspect visited fuel hc hs hnd hf hk
    obtain ⟨f, rfl⟩ : ∃ f, fuel = f + 1 := ⟨fuel - 1, by simp at hf; omega⟩
    have hf' : rest.length < f := by simp at hf; omega
    have hsuf := (chain_append.mp hc).2
    have htl := chain_tail hsuf
    simp only [List.head?_cons]
    unfold Mem.scan_move
    by_cases hflag : (h c).file.is_suspicious = true
    · rw [if_pos hflag]
      obtain ⟨p, a, p2, hsplit, hpa, hpp⟩ :=
        @exists_first_address (fun x => (h x).file.name = (h c).file.name)
          (pre ++ [c]) ⟨c, by simp, rfl⟩
      have hcs : pre ++ c :: rest = p ++ a :: (p2 ++ rest) := by
        have : pre ++ c :: rest = (pre ++ [c]) ++ rest := by simp
        rw [this, hsplit]
        simp
      have hnd1 : (p ++ a :: (p2 ++ rest)).Nodup := by
        rw [← hcs]
        exact (List.nodup_append.mp hnd).1
      have hklen : p.length < k := by
        have : (pre ++ c :: rest).length = (p ++ a :: (p2 ++ rest)).length := by rw [hcs]
        simp only [List.length_append, List.length_cons] at this hk ⊢
        omega
      obtain ⟨h1, clean1, hrem, hch1, hfile1, hframe1⟩ :=
        mem_remove_file_found (hcs ▸ hc) hnd1 hpp hpa hklen
      rw [hrem]
      simp only [Mem.insert_file]
      have hnd2 : ((p ++ a :: (p2 ++ rest)) ++ bs).Nodup := by
        rw [← hcs]
        exact hnd
      have ha_notin : a ∉ p ++ (p2 ++ rest) := by
        intro hin
        have h1' := List.nodup_append.mp hnd1
        rcases List.mem_append.mp hin with hin | hin
        · exact h1'.2.2 hin (List.mem_cons_self _ _)
        · exact (List.nodup_cons.mp h1'.2.1).1 hin
      have ha_bs : a ∉ bs := by
        intro hin
        exact (List.nodup_append.mp hnd2).2.2 (by simp) hin
      have hbs_frame : ∀ x ∈ bs, (h1.set_next a suspect) x = h x := by
        intro x hx
        have hxa : x ≠ a := by
          rintro rfl
          exact ha_bs hx
        rw [set_next_other _ _ _ hxa]
        refine hframe1 x ?_
        intro hin
        have hin' : x ∈ p ++ a :: (p2 ++ rest) := by
          rcases List.mem_append.mp hin with hin | hin
          · exact List.mem_append_left _ hin
          · exact List.mem_append_right _ (by
              rw [List.mem_singleton.mp hin]
              exact List.mem_cons_self _ _)
        exact (List.nodup_append.mp hnd2).2.2 hin' hx
      have hfile2 : ∀ x, ((h1.set_next a suspect) x).file = (h x).file := by
        intro x
        rw [set_next_file, hfile1]
      have hc2 : Chain (h1.set_next a suspect) clean1 ((p ++ p2) ++ rest) := by
        rw [List.append_assoc]
        refine chain_frame hch1 (fun x hx => set_next_other _ _ _ ?_)
        rintro rfl
        exact ha_notin hx
      have hs2 : Chain (h1.set_next a suspect) (some a) (a :: bs) := by
        refine ⟨rfl, ?_⟩
        rw [set_next_self]
        exact chain_frame hs hbs_frame
      have hnd3 : (((p ++ p2) ++ rest) ++ (a :: bs)).Nodup := by
        refine (List.Perm.nodup_iff ?_).mpr hnd2
        rw [List.perm_iff_count]
        intro x
        simp only [List.count_append, List.count_cons]
        omega
      have hk3 : ((p ++ p2) ++ rest).length < k := by
        have : (pre ++ c :: rest).length = (p ++ a :: (p2 ++ rest)).length := by rw [hcs]
        simp only [List.length_append, List.length_cons] at this hk ⊢
        omega
      obtain ⟨h', clean', suspect', as', bs', hrun, hca, hcb, hndab, hlist⟩ :=
        ih (p ++ p2) (a :: bs) (h1.set_next a suspect) clean1 (some a) (visited ++ [c]) f
          hc2 hs2 hnd3 hf' hk3
      refine ⟨h', clean', suspect', as', bs', ?_, hca, hcb, hndab, ?_⟩
      · rw [htl.1, hrun]
        simp
      · rw [recs_congr hfile2, recs_congr hfile2, recs_congr hfile2] at hlist
        have hrm : remove_file (recs h (pre ++ c :: rest)) (h c).file.name
            = (some (h a).file, recs h ((p ++ p2) ++ rest)) := by
          rw [hcs]
          have := @remove_file_append (recs h p) (recs h (p2 ++ rest)) (h a).file
            (h c).file.name (by
              intro x hx
              obtain ⟨y, hy, rfl⟩ := List.mem_map.mp hx
              exact hpp y hy) hpa
          simpa [recs] using this
        show scan_move ((h c).file :: recs h rest) (recs h (pre ++ c :: rest)) (recs h bs) = _
        unfold scan_move
        rw [if_pos hflag, hrm]
        simp only [insert_file]
        exact hlist
    · rw [if_neg hflag]
      have hc2 : Chain h clean ((pre ++ [c]) ++ rest) := by simpa using hc
      obtain ⟨h', clean', suspect', as', bs', hrun, hca, hcb, hndab, hlist⟩ :=
        ih (pre ++ [c]) bs h clean suspect (visited ++ [c]) f hc2 hs (by simpa using hnd)
          hf' (by simpa using hk)
      refine ⟨h', clean', suspect', as', bs', ?_, hca, hcb, hndab, ?_⟩
      · rw [htl.1, hrun]
        simp
      · show scan_move ((h c).file :: recs h rest) (recs h (pre ++ c :: rest)) (recs h bs) = _
        unfold scan_move
        rw [if_neg hflag]
        simpa using hlist

theorem one_pass_partition_eq (sigs : List Sig) (l suspect : List FileRec) :
    one_pass_partition sigs l suspect
      = (l.filter (fun r => !decide (name_matches sigs r.name)),
          ((l.filter (fun r => decide (name_matches sigs r.name))).map flagged).reverse
            ++ suspect) := by
  induction l generalizing suspect with
  | nil => rfl
  | cons a t ih =>
    unfold one_pass_partition
    by_cases hm : name_matches sigs a.name
    · rw [if_pos hm, ih]
      simp [List.filter_cons, hm, flagged]
    · rw [if_neg hm, ih]
      simp [List.filter_cons, hm]

/-! ## Claims -/

/-- C1. Name uniqueness is an invariant: in every state reached from the empty start state
by any finite sequence of commands, no two records of the concatenation of the clean,
suspect and quarantine lists have the same name. -/
theorem name_uniqueness_invariant (s : State) (h : Reachable s) :
    List.Pairwise (fun a b : FileRec => a.name ≠ b.name)
      (s.clean_list ++ s.suspect_list ++ s.quarantine_list) := by
  have hn := (reachable_inv h).nodup
  simp only [names, registry] at hn
  exact (List.pairwise_map).mp hn

theorem name_uniqueness_invariant_witness :
    Reachable sample_quarantined ∧
      List.Pairwise (fun a b : FileRec => a.name ≠ b.name)
        (sample_quarantined.clean_list ++ sample_quarantined.suspect_list
          ++ sample_quarantined.quarantine_list) :=
  ⟨sample_quarantined_reachable,
    name_uniqueness_invariant sample_quarantined sample_quarantined_reachable⟩

/-- C2. Scan classifies exactly by substring match: from a reachable state with a
non-empty signature list the scan returns, and a record of the old clean list is in the
new suspect list with its flag set if and only if a stored signature occurs in its name
(then no clean or quarantine record bears its name), and otherwise it is still in the
clean list, unflagged (and no suspect or quarantine record bears its name); the records
that were in suspect or quarantine are still there, unaltered, and in no other
partition. -/
theorem scan_classifies_by_substring (s : State) (h : Reachable s)
    (hsig : s.signature_list ≠ []) :
    ∃ s' n, cmd_scan s = some (s', Msg.scan_complete n) ∧
      (∀ r ∈ s.clean_list,
        ({ r with is_suspicious := true } ∈ s'.suspect_list
          ↔ name_matches s.signature_list r.name) ∧
        (name_matches s.signature_list r.name →
          ∀ x ∈ s'.clean_list ++ s'.quarantine_list, x.name ≠ r.name) ∧
        (¬ name_matches s.signature_list r.name →
          r ∈ s'.clean_list ∧ r.is_suspicious = false ∧
          ∀ x ∈ s'.suspect_list ++ s'.quarantine_list, x.name ≠ r.name)) ∧
      (∀ r ∈ s.suspect_list, r ∈ s'.suspect_list ∧
        ∀ x ∈ s'.clean_list ++ s'.quarantine_list, x.name ≠ r.name) ∧
      (∀ r ∈ s.quarantine_list, r ∈ s'.quarantine_list ∧
        ∀ x ∈ s'.clean_list ++ s'.suspect_list, x.name ≠ r.name) := by
  have hinv := reachable_inv h
  have heq := cmd_scan_eq s hsig (inv_clean_nodup hinv) hinv.clean_unflagged
  have hinv' : Inv (scan_result s) := inv_cmd_scan hinv heq
  have hflag : ∀ r ∈ s.clean_list, name_matches s.signature_list r.name →
      flagged r ∈ (scan_result s).suspect_list := by
    intro r hr hm
    simp only [scan_result, List.mem_append, List.mem_reverse, List.mem_map]
    exact Or.inl ⟨r, List.mem_filter.mpr ⟨hr, by simpa using hm⟩, rfl⟩
  have hkeep : ∀ r ∈ s.clean_list, ¬ name_matches s.signature_list r.name →
      r ∈ (scan_result s).clean_list := by
    intro r hr hm
    simp only [scan_result]
    exact List.mem_filter.mpr ⟨hr, by simpa using hm⟩
  refine ⟨scan_result s, match_count s, heq, ?_, ?_, ?_⟩
  · intro r hr
    refine ⟨⟨?_, hflag r hr⟩, ?_, ?_⟩
    · intro hin
      by_contra hm
      exact inv_clean_suspect hinv' (hkeep r hr hm) hin rfl
    · intro hm x hx
      rcases List.mem_append.mp hx with hx | hx
      · have hne := inv_clean_suspect hinv' hx (hflag r hr hm)
        exact hne
      · have hne := inv_suspect_quarantine hinv' (hflag r hr hm) hx
        exact fun e => hne e.symm
    · intro hm
      refine ⟨hkeep r hr hm, hinv.clean_unflagged r hr, ?_⟩
      intro x hx
      rcases List.mem_append.mp hx with hx | hx
      · exact (inv_clean_suspect hinv' (hkeep r hr hm) hx).symm
      · exact (inv_clean_quarantine hinv' (hkeep r hr hm) hx).symm
  · intro r hr
    have hin : r ∈ (scan_result s).suspect_list := by
      simp only [scan_result]
      exact List.mem_append_right _ hr
    refine ⟨hin, ?_⟩
    intro x hx
    rcases List.mem_append.mp hx with hx | hx
    · exact inv_clean_suspect hinv' hx hin
    · exact (inv_suspect_quarantine hinv' hin hx).symm
  · intro r hr
    have hin : r ∈ (scan_result s).quarantine_list := hr
    refine ⟨hin, ?_⟩
    intro x hx
    rcases List.mem_append.mp hx with hx | hx
    · exact inv_clean_quarantine hinv' hx hin
    · exact inv_suspect_quarantine hinv' hx hin

theorem scan_classifies_by_substring_witness :
    Reachable sample_loaded ∧ sample_loaded.signature_list ≠ [] ∧
    ∃ s' n, cmd_scan sample_loaded = some (s', Msg.scan_complete n) ∧
      (∀ r ∈ sample_loaded.clean_list,
        ({ r with is_suspicious := true } ∈ s'.suspect_list
          ↔ name_matches sample_loaded.signature_list r.name) ∧
        (name_matches sample_loaded.signature_list r.name →
          ∀ x ∈ s'.clean_list ++ s'.quarantine_list, x.name ≠ r.name) ∧
        (¬ name_matches sample_loaded.signature_list r.name →
          r ∈ s'.clean_list ∧ r.is_suspicious = false ∧
          ∀ x ∈ s'.suspect_list ++ s'.quarantine_list, x.name ≠ r.name)) ∧
      (∀ r ∈ sample_loaded.suspect_list, r ∈ s'.suspect_list ∧
        ∀ x ∈ s'.clean_list ++ s'.quarantine_list, x.name ≠ r.name) ∧
      (∀ r ∈ sample_loaded.quarantine_list, r ∈ s'.quarantine_list ∧
        ∀ x ∈ s'.clean_list ++ s'.suspect_list, x.name ≠ r.name) :=
  ⟨sample_loaded_reachable, by decide,
    scan_classifies_by_substring sample_loaded sample_loaded_reachable (by decide)⟩

/-- C3. LoadFile fails exactly on a name collision and is atomic on failure: in every
state `cmd_load` reports `file_exists` if and only if a record of the clean, suspect or
quarantine list has exactly that name, and then all four lists are unchanged. -/
theorem load_fails_exactly_on_collision (s : State) (name : String) (size : Nat) :
    ((cmd_load s name size).2 = Msg.file_exists
      ↔ ∃ r ∈ s.clean_list ++ s.suspect_list ++ s.quarantine_list, r.name = name) ∧
    ((cmd_load s name size).2 = Msg.file_exists → (cmd_load s name size).1 = s) := by
  have hmem : (∃ r ∈ s.clean_list ++ s.suspect_list ++ s.quarantine_list, r.name = name)
      ↔ name ∈ names (registry s) := by
    unfold names registry
    constructor
    · rintro ⟨r, hr, hn⟩
      exact List.mem_map.mpr ⟨r, hr, hn⟩
    · intro hm
      obtain ⟨r, hr, hn⟩ := List.mem_map.mp hm
      exact ⟨r, hr, hn⟩
  rw [hmem]
  by_cases hc : name ∈ names (registry s)
  · rw [cmd_load_dup size hc]
    simp [hc]
  · rw [cmd_load_fresh size hc]
    simp [hc]

/-- C4. Successful LoadFile: when no partition holds a record named `name`, `cmd_load`
reports success, the clean list is the old one with the new unflagged record
`(name, size)` pushed at its head, and the suspect list, the quarantine list and the
signature list are unchanged. -/
theorem load_success_postcondition (s : State) (name : String) (size : Nat)
    (hfresh : ∀ r ∈ s.clean_list ++ s.suspect_list ++ s.quarantine_list, r.name ≠ name) :
    (cmd_load s name size).2 = Msg.file_loaded ∧
    (cmd_load s name size).1.clean_list
      = { name := name, size := size, is_suspicious := false } :: s.clean_list ∧
    (cmd_load s name size).1.suspect_list = s.suspect_list ∧
    (cmd_load s name size).1.quarantine_list = s.quarantine_list ∧
    (cmd_load s name size).1.signature_list = s.signature_list := by
  have hc : name ∉ names (registry s) := by
    simp only [names, registry, List.mem_map, not_exists, not_and]
    exact fun r hr => hfresh r hr
  rw [cmd_load_fresh size hc]
  exact ⟨rfl, rfl, rfl, rfl, rfl⟩

theorem load_success_postcondition_witness :
    (cmd_load sample_scanned "notes.txt" 7).2 = Msg.file_loaded ∧
    (cmd_load sample_scanned "notes.txt" 7).1.clean_list
      = { name := "notes.txt", size := 7, is_suspicious := false }
          :: sample_scanned.clean_list ∧
    (cmd_load sample_scanned "notes.txt" 7).1.suspect_list = sample_scanned.suspect_list ∧
    (cmd_load sample_scanned "notes.txt" 7).1.quarantine_list
      = sample_scanned.quarantine_list ∧
    (cmd_load sample_scanned "notes.txt" 7).1.signature_list
      = sample_scanned.signature_list :=
  load_success_postcondition sample_scanned "notes.txt" 7 (by decide)

/-- C5. Quarantine then Restore is a round trip on the record: from a reachable state
whose suspect list holds the record `r` named `name`, both calls succeed, and afterwards
`r` with its flag cleared (same name, same size) is in the clean list, no suspect or
quarantine record bears the name, and the quarantine list is what it was before the
two calls. -/
theorem quarantine_restore_round_trip (s : State) (h : Reachable s) (name : String)
    (r : FileRec) (hr : r ∈ s.suspect_list) (hname : r.name = name) :
    (cmd_quarantine s name).2 = Msg.quarantined ∧
    (cmd_restore (cmd_quarantine s name).1 name).2 = Msg.restored ∧
    { name := r.name, size := r.size, is_suspicious := false }
      ∈ (cmd_restore (cmd_quarantine s name).1 name).1.clean_list ∧
    (∀ x ∈ (cmd_restore (cmd_quarantine s name).1 name).1.suspect_list
        ++ (cmd_restore (cmd_quarantine s name).1 name).1.quarantine_list, x.name ≠ name) ∧
    (cmd_restore (cmd_quarantine s name).1 name).1.quarantine_list = s.quarantine_list := by
  have hinv := reachable_inv h
  obtain ⟨pre, r', post, hs, hpre, hr'⟩ := exists_first_named ⟨r, hr, hname⟩
  have hrr : r' = r :=
    names_unique (inv_suspect_nodup hinv) (by rw [hs]; simp) hr (hr'.trans hname.symm)
  subst hrr
  have hq := cmd_quarantine_present hs hpre hr'
  have hres : cmd_restore (cmd_quarantine s name).1 name
      = ({ (cmd_quarantine s name).1 with
            quarantine_list := [] ++ s.quarantine_list,
            clean_list := { r' with is_suspicious := false }
              :: (cmd_quarantine s name).1.clean_list }, Msg.restored) := by
    refine @cmd_restore_present _ name [] s.quarantine_list r' ?_ (by simp) hr'
    rw [hq]
    rfl
  have hinv2 : Inv (cmd_restore (cmd_quarantine s name).1 name).1 :=
    inv_cmd_restore (inv_cmd_quarantine hinv name) name
  have hclean : ({ name := r'.name, size := r'.size, is_suspicious := false } : FileRec)
      ∈ (cmd_restore (cmd_quarantine s name).1 name).1.clean_list := by
    rw [hres]
    exact List.mem_cons_self _ _
  refine ⟨by rw [hq], by rw [hres], hclean, ?_, by rw [hres]; rfl⟩
  intro x hx
  rcases List.mem_append.mp hx with hx | hx
  · have := inv_clean_suspect hinv2 hclean hx
    exact fun hxn => this (hr'.trans hxn.symm)
  · have := inv_clean_quarantine hinv2 hclean hx
    exact fun hxn => this (hr'.trans hxn.symm)

theorem quarantine_restore_round_trip_witness :
    (cmd_quarantine sample_scanned "virus1.exe").2 = Msg.quarantined ∧
    (cmd_restore (cmd_quarantine sample_scanned "virus1.exe").1 "virus1.exe").2
      = Msg.restored ∧
    { name := "virus1.exe", size := 10, is_suspicious := false }
      ∈ (cmd_restore (cmd_quarantine sample_scanned "virus1.exe").1 "virus1.exe").1.clean_list ∧
    (∀ x ∈ (cmd_restore (cmd_quarantine sample_scanned "virus1.exe").1
          "virus1.exe").1.suspect_list
        ++ (cmd_restore (cmd_quarantine sample_scanned "virus1.exe").1
          "virus1.exe").1.quarantine_list, x.name ≠ "virus1.exe") ∧
    (cmd_restore (cmd_quarantine sample_scanned "virus1.exe").1 "virus1.exe").1.quarantine_list
      = sample_scanned.quarantine_list :=
  quarantine_restore_round_trip sample_scanned sample_scanned_reachable "virus1.exe"
    ⟨"virus1.exe", 10, true⟩ (by decide) rfl

/-- C6, refuted as stated: from the reachable start state, whose signature list is
empty, both runs of the scan take the early return and print "nothing to scan"; the
second run reports no count of newly suspicious files, so in particular not 0. -/
theorem scan_twice_from_start_reports_no_count :
    Reachable initial ∧
    cmd_scan initial = some (initial, Msg.nothing_to_scan) ∧
    ¬ ∃ s1 m1, cmd_scan initial = some (s1, m1) ∧
        cmd_scan s1 = some (s1, Msg.scan_complete 0) := by
  refine ⟨Reachable.start, by decide, ?_⟩
  rintro ⟨s1, m1, h1, h2⟩
  have e : cmd_scan initial = some (initial, Msg.nothing_to_scan) := by decide
  rw [e] at h1
  cases h1
  rw [e] at h2
  cases h2

/-- C6, amended. Scan is idempotent on the state: from every reachable state the scan
returns, and a second scan right after it returns the very same clean, suspect,
quarantine and signature lists. With a non-empty signature list the first run moves
the clean records that match a signature, flagged, onto the suspect list, keeps the
others and the quarantine and signature lists, and reports the number of records moved;
the second run reports 0 newly suspicious files. With an empty signature list each of the two runs takes the early
return: the first leaves the state as it was, and both report "nothing to scan", with no
count. -/
theorem scan_idempotent (s : State) (h : Reachable s) :
    ∃ s1 m1, cmd_scan s = some (s1, m1) ∧
      ∃ m2, cmd_scan s1 = some (s1, m2) ∧
        (s.signature_list ≠ [] →
          s1.clean_list
            = s.clean_list.filter
                (fun r => !decide (name_matches s.signature_list r.name)) ∧
          s1.suspect_list
            = ((s.clean_list.filter
                  (fun r => decide (name_matches s.signature_list r.name))).map
                (fun r => { r with is_suspicious := true })).reverse ++ s.suspect_list ∧
          s1.quarantine_list = s.quarantine_list ∧
          s1.signature_list = s.signature_list ∧
          m1 = Msg.scan_complete
            (s.clean_list.countP (fun r => decide (name_matches s.signature_list r.name))) ∧
          m2 = Msg.scan_complete 0) ∧
        (s.signature_list = [] →
          s1 = s ∧ m1 = Msg.nothing_to_scan ∧ m2 = Msg.nothing_to_scan) := by
  have hinv := reachable_inv h
  by_cases hsig : s.signature_list = []
  · refine ⟨s, Msg.nothing_to_scan, cmd_scan_empty s hsig, Msg.nothing_to_scan,
      cmd_scan_empty s hsig, fun hne => absurd hsig hne, fun _ => ⟨rfl, rfl, rfl⟩⟩
  · have heq := cmd_scan_eq s hsig (inv_clean_nodup hinv) hinv.clean_unflagged
    have hinv' : Inv (scan_result s) := inv_cmd_scan hinv heq
    have hsig' : (scan_result s).signature_list ≠ [] := hsig
    have heq' := cmd_scan_eq (scan_result s) hsig' (inv_clean_nodup hinv')
      hinv'.clean_unflagged
    have hnone : (scan_result s).clean_list.filter
        (fun r => decide (name_matches (scan_result s).signature_list r.name)) = [] := by
      rw [List.filter_eq_nil_iff]
      intro r hr
      have := (List.mem_filter.mp hr).2
      simpa [scan_result] using this
    have hall : (scan_result s).clean_list.filter
        (fun r => !decide (name_matches (scan_result s).signature_list r.name))
        = (scan_result s).clean_list := by
      rw [List.filter_eq_self]
      intro r hr
      have := (List.mem_filter.mp hr).2
      simpa [scan_result] using this
    have hfix : scan_result (scan_result s) = scan_result s := by
      have hdef : scan_result (scan_result s) =
          { scan_result s with
            clean_list := (scan_result s).clean_list.filter
              (fun r => !decide (name_matches (scan_result s).signature_list r.name)),
            suspect_list :=
              (((scan_result s).clean_list.filter
                (fun r => decide (name_matches (scan_result s).signature_list r.name))).map
                  flagged).reverse ++ (scan_result s).suspect_list } := rfl
      rw [hdef, hnone, hall]
      rfl
    have hzero : match_count (scan_result s) = 0 := by
      unfold match_count
      rw [hnone]
      rfl
    rw [hfix, hzero] at heq'
    have hcount : match_count s
        = s.clean_list.countP (fun r => decide (name_matches s.signature_list r.name)) := by
      simp only [match_count, List.countP_eq_length_filter]
    exact ⟨scan_result s, _, heq, _, heq',
      fun _ => ⟨rfl, rfl, rfl, rfl, by rw [hcount], rfl⟩, fun he => absurd he hsig⟩

theorem scan_idempotent_witness :
    Reachable sample_loaded ∧
    ∃ s1 m1, cmd_scan sample_loaded = some (s1, m1) ∧
      ∃ m2, cmd_scan s1 = some (s1, m2) ∧
        (sample_loaded.signature_list ≠ [] →
          s1.clean_list
            = sample_loaded.clean_list.filter
                (fun r => !decide (name_matches sample_loaded.signature_list r.name)) ∧
          s1.suspect_list
            = ((sample_loaded.clean_list.filter
                  (fun r => decide (name_matches sample_loaded.signature_list r.name))).map
                (fun r => { r with is_suspicious := true })).reverse
              ++ sample_loaded.suspect_list ∧
          s1.quarantine_list = sample_loaded.quarantine_list ∧
          s1.signature_list = sample_loaded.signature_list ∧
          m1 = Msg.scan_complete
            (sample_loaded.clean_list.countP
              (fun r => decide (name_matches sample_loaded.signature_list r.name))) ∧
          m2 = Msg.scan_complete 0) ∧
        (sample_loaded.signature_list = [] →
          s1 = sample_loaded ∧ m1 = Msg.nothing_to_scan ∧ m2 = Msg.nothing_to_scan) :=
  ⟨sample_loaded_reachable, scan_idempotent sample_loaded sample_loaded_reachable⟩

/-- The two cases of a repeated scan on sample states. With the signature `virus` the
first run moves the two matching files and reports 2, the second changes nothing and
reports 0. With no signature, and files in all three partitions, both runs change
nothing and report "nothing to scan". -/
theorem scan_twice_on_samples :
    cmd_scan sample_loaded = some (sample_scanned, Msg.scan_complete 2) ∧
    cmd_scan sample_scanned = some (sample_scanned, Msg.scan_complete 0) ∧
    Reachable sample_unsigned ∧
    cmd_scan sample_unsigned = some (sample_unsigned, Msg.nothing_to_scan) :=
  ⟨by decide, by decide,
    reachable_of_run [Cmd.del_sig "virus"] sample_quarantined_reachable (by decide),
    by decide⟩

/-- C7. The count reported by Scan is the number of newly suspicious files: from a
reachable state with a non-empty signature list the scan returns, and its
`suspicious_count` is the number of records of the old clean list whose name contains
at least one stored signature (each such record counted once); the clean list shrinks
by that number and the suspect list grows by it. -/
theorem scan_count_is_newly_suspicious (s : State) (h : Reachable s)
    (hsig : s.signature_list ≠ []) :
    ∃ s' n, cmd_scan s = some (s', Msg.scan_complete n) ∧
      n = s.clean_list.countP (fun r => decide (name_matches s.signature_list r.name)) ∧
      count_files s'.clean_list + n = count_files s.clean_list ∧
      count_files s'.suspect_list = count_files s.suspect_list + n := by
  have hinv := reachable_inv h
  have heq := cmd_scan_eq s hsig (inv_clean_nodup hinv) hinv.clean_unflagged
  refine ⟨scan_result s, match_count s, heq, ?_, ?_, ?_⟩
  · simp only [match_count, List.countP_eq_length_filter]
  · have hlen := (List.filter_append_perm
      (fun r => decide (name_matches s.signature_list r.name)) s.clean_list).length_eq
    simp only [count_files_eq, scan_result, match_count, List.length_append] at hlen ⊢
    omega
  · simp only [count_files_eq, scan_result, match_count, List.length_append,
      List.length_reverse, List.length_map]
    omega

theorem scan_count_is_newly_suspicious_witness :
    Reachable sample_two_sigs ∧ sample_two_sigs.signature_list ≠ [] ∧
    ∃ s' n, cmd_scan sample_two_sigs = some (s', Msg.scan_complete n) ∧
      n = sample_two_sigs.clean_list.countP
        (fun r => decide (name_matches sample_two_sigs.signature_list r.name)) ∧
      count_files s'.clean_list + n = count_files sample_two_sigs.clean_list ∧
      count_files s'.suspect_list = count_files sample_two_sigs.suspect_list + n :=
  have hreach : Reachable sample_two_sigs :=
    reachable_of_run [Cmd.add_sig "exe", Cmd.add_sig "virus", Cmd.load "virus1.exe" 10,
      Cmd.load "setup.exe" 5, Cmd.load "readme.txt" 50] Reachable.start (by decide)
  ⟨hreach, by decide, scan_count_is_newly_suspicious sample_two_sigs hreach (by decide)⟩

/-- The scan of `sample_two_sigs` reports 2: `virus1.exe` contains both signatures and
is counted once, `setup.exe` contains one, `readme.txt` none. -/
theorem scan_two_sigs_counts_once :
    cmd_scan sample_two_sigs
      = some ({ sample_two_sigs with
                clean_list := [⟨"readme.txt", 50, false⟩],
                suspect_list := [⟨"virus1.exe", 10, true⟩, ⟨"setup.exe", 5, true⟩] },
              Msg.scan_complete 2) := by
  decide

/-- C8. Scan with an empty signature list is a no-op: in every state whose signature
list is empty, `cmd_scan` returns with the clean, suspect, quarantine and signature
lists exactly as they were, after printing "nothing to scan". -/
theorem scan_without_signatures_is_noop (s : State) (hsig : s.signature_list = []) :
    cmd_scan s = some (s, Msg.nothing_to_scan) := by
  unfold cmd_scan
  rw [hsig]

theorem scan_without_signatures_is_noop_witness :
    sample_unsigned.signature_list = [] ∧
    cmd_scan sample_unsigned = some (sample_unsigned, Msg.nothing_to_scan) :=
  ⟨rfl, scan_without_signatures_is_noop sample_unsigned rfl⟩

/-- C9. Quarantine moves only the named record: from a reachable state whose suspect
list holds the record `r` named `name`, `cmd_quarantine` succeeds, `r` itself (name,
size and flag unaltered) is pushed on the quarantine list in front of all the old
quarantine records, the suspect list loses exactly `r` and keeps every other record in
order (none of them bears the name), and the clean list and the signature list are
unchanged. -/
theorem quarantine_moves_only_named (s : State) (h : Reachable s) (name : String)
    (r : FileRec) (hr : r ∈ s.suspect_list) (hname : r.name = name) :
    (cmd_quarantine s name).2 = Msg.quarantined ∧
    (cmd_quarantine s name).1.quarantine_list = r :: s.quarantine_list ∧
    (∀ x ∈ s.quarantine_list, x ∈ (cmd_quarantine s name).1.quarantine_list) ∧
    (∃ pre post, s.suspect_list = pre ++ r :: post ∧
      (cmd_quarantine s name).1.suspect_list = pre ++ post ∧
      ∀ x ∈ pre ++ post, x.name ≠ name) ∧
    (cmd_quarantine s name).1.clean_list = s.clean_list ∧
    (cmd_quarantine s name).1.signature_list = s.signature_list := by
  have hinv := reachable_inv h
  obtain ⟨pre, r', post, hs, hpre, hr'⟩ := exists_first_named ⟨r, hr, hname⟩
  have hrr : r' = r :=
    names_unique (inv_suspect_nodup hinv) (by rw [hs]; simp) hr (hr'.trans hname.symm)
  subst hrr
  rw [cmd_quarantine_present hs hpre hr']
  refine ⟨rfl, rfl, fun x hx => List.mem_cons_of_mem _ hx, ⟨pre, post, hs, rfl, ?_⟩, rfl, rfl⟩
  intro x hx
  rcases List.mem_append.mp hx with hx | hx
  · exact hpre x hx
  · have hnd := inv_suspect_nodup hinv
    rw [hs, names_append] at hnd
    have hcons := (List.nodup_append.mp hnd).2.1
    simp only [names, List.map_cons, List.nodup_cons, List.mem_map, not_exists, not_and]
      at hcons
    exact fun hxn => hcons.1 x hx (hxn.trans hr'.symm)

theorem quarantine_moves_only_named_witness :
    (cmd_quarantine sample_scanned "virus1.exe").2 = Msg.quarantined ∧
    (cmd_quarantine sample_scanned "virus1.exe").1.quarantine_list
      = ⟨"virus1.exe", 10, true⟩ :: sample_scanned.quarantine_list ∧
    (∀ x ∈ sample_scanned.quarantine_list,
      x ∈ (cmd_quarantine sample_scanned "virus1.exe").1.quarantine_list) ∧
    (∃ pre post, sample_scanned.suspect_list = pre ++ ⟨"virus1.exe", 10, true⟩ :: post ∧
      (cmd_quarantine sample_scanned "virus1.exe").1.suspect_list = pre ++ post ∧
      ∀ x ∈ pre ++ post, x.name ≠ "virus1.exe") ∧
    (cmd_quarantine sample_scanned "virus1.exe").1.clean_list = sample_scanned.clean_list ∧
    (cmd_quarantine sample_scanned "virus1.exe").1.signature_list
      = sample_scanned.signature_list :=
  quarantine_moves_only_named sample_scanned sample_scanned_reachable "virus1.exe"
    ⟨"virus1.exe", 10, true⟩ (by decide) rfl

/-- C10. Quarantine and Restore fail with a partition-scoped NotFound and are atomic on
failure: in every state `cmd_quarantine` reports "not found in suspect list" if and
only if no suspect record has the name (whatever the clean and quarantine lists hold),
`cmd_restore` reports "not found in quarantine" if and only if no quarantine record has
the name (whatever the clean and suspect lists hold), and a failing call returns the
state it was given. -/
theorem quarantine_restore_not_found (s : State) (name : String) :
    ((cmd_quarantine s name).2 = Msg.not_in_suspect
      ↔ ∀ r ∈ s.suspect_list, r.name ≠ name) ∧
    ((cmd_quarantine s name).2 = Msg.not_in_suspect → (cmd_quarantine s name).1 = s) ∧
    ((cmd_restore s name).2 = Msg.not_in_quarantine
      ↔ ∀ r ∈ s.quarantine_list, r.name ≠ name) ∧
    ((cmd_restore s name).2 = Msg.not_in_quarantine → (cmd_restore s name).1 = s) := by
  have hq : ((cmd_quarantine s name).2 = Msg.not_in_suspect
      ↔ ∀ r ∈ s.suspect_list, r.name ≠ name) ∧
      ((cmd_quarantine s name).2 = Msg.not_in_suspect → (cmd_quarantine s name).1 = s) := by
    by_cases hex : ∃ r ∈ s.suspect_list, r.name = name
    · obtain ⟨pre, r, post, hs, hpre, hr⟩ := exists_first_named hex
      rw [cmd_quarantine_present hs hpre hr]
      refine ⟨⟨fun hm => (by cases hm), fun hall => ?_⟩, fun hm => (by cases hm)⟩
      exact absurd hr (hall r (by rw [hs]; simp))
    · push_neg at hex
      rw [cmd_quarantine_absent hex]
      exact ⟨⟨fun _ => hex, fun _ => rfl⟩, fun _ => rfl⟩
  have hr : ((cmd_restore s name).2 = Msg.not_in_quarantine
      ↔ ∀ r ∈ s.quarantine_list, r.name ≠ name) ∧
      ((cmd_restore s name).2 = Msg.not_in_quarantine → (cmd_restore s name).1 = s) := by
    by_cases hex : ∃ r ∈ s.quarantine_list, r.name = name
    · obtain ⟨pre, r, post, hs, hpre, hr⟩ := exists_first_named hex
      rw [cmd_restore_present hs hpre hr]
      refine ⟨⟨fun hm => (by cases hm), fun hall => ?_⟩, fun hm => (by cases hm)⟩
      exact absurd hr (hall r (by rw [hs]; simp))
    · push_neg at hex
      rw [cmd_restore_absent hex]
      exact ⟨⟨fun _ => hex, fun _ => rfl⟩, fun _ => rfl⟩
  exact ⟨hq.1, hq.2, hr.1, hr.2⟩

/-- In `sample_quarantined` the name `virus1.exe` is held in quarantine and `readme.txt`
in clean: quarantining either fails and changes nothing, and so does restoring
`virus2.exe`, which is held in suspect. -/
theorem not_found_is_partition_scoped :
    cmd_quarantine sample_quarantined "virus1.exe"
      = (sample_quarantined, Msg.not_in_suspect) ∧
    cmd_quarantine sample_quarantined "readme.txt"
      = (sample_quarantined, Msg.not_in_suspect) ∧
    cmd_restore sample_quarantined "virus2.exe"
      = (sample_quarantined, Msg.not_in_quarantine) ∧
    cmd_restore sample_quarantined "readme.txt"
      = (sample_quarantined, Msg.not_in_quarantine) := by
  decide

/-- C11, refuted as stated: the reachable state `sample_big` holds two clean records of
sizes 1 and 2^64 - 1, both values of `size_t`; their sum is 2^64, and `total_bytes`
returns 0. -/
theorem total_bytes_wraps_around :
    Reachable sample_big ∧
    (∀ r ∈ sample_big.clean_list, r.size < 2 ^ SIZE_BITS) ∧
    size_sum sample_big.clean_list = 18446744073709551616 ∧
    total_bytes sample_big.clean_list = 0 ∧
    total_bytes sample_big.clean_list ≠ size_sum sample_big.clean_list := by
  refine ⟨sample_big_reachable, by decide, by decide, by decide, by decide⟩

/-- C11, amended. `total_bytes` is the sum of the sizes reduced modulo 2^64: for every
list it returns the sum of the `size` fields modulo `2 ^ SIZE_BITS`, hence the sum
itself whenever that sum is below `2 ^ SIZE_BITS`, and 0 for the empty list. -/
theorem total_bytes_is_sum_mod (l : List FileRec) :
    total_bytes l = size_sum l % 2 ^ SIZE_BITS ∧
    (size_sum l < 2 ^ SIZE_BITS → total_bytes l = size_sum l) ∧
    total_bytes [] = 0 := by
  have h : total_bytes l = size_sum l % 2 ^ SIZE_BITS := by
    unfold total_bytes
    rw [total_bytes_loop_eq l 0 (Nat.two_pow_pos _), Nat.zero_add]
  exact ⟨h, fun hlt => by rw [h, Nat.mod_eq_of_lt hlt], rfl⟩

/-- C12. Purge empties everything from any state: after `cmd_purge` the clean, suspect
and quarantine lists are empty, `count_files` and `total_bytes` are 0 for each of them,
and the signature list is empty. -/
theorem purge_empties_everything (s : State) :
    (cmd_purge s).1.clean_list = [] ∧
    (cmd_purge s).1.suspect_list = [] ∧
    (cmd_purge s).1.quarantine_list = [] ∧
    (cmd_purge s).1.signature_list = [] ∧
    count_files (cmd_purge s).1.clean_list = 0 ∧
    count_files (cmd_purge s).1.suspect_list = 0 ∧
    count_files (cmd_purge s).1.quarantine_list = 0 ∧
    total_bytes (cmd_purge s).1.clean_list = 0 ∧
    total_bytes (cmd_purge s).1.suspect_list = 0 ∧
    total_bytes (cmd_purge s).1.quarantine_list = 0 := by
  rw [show cmd_purge s = (initial, Msg.purged) by
    simp only [cmd_purge, free_file_list_eq, free_signature_list_eq]; rfl]
  exact ⟨rfl, rfl, rfl, rfl, rfl, rfl, rfl, rfl, rfl, rfl⟩

/-- C13. DeleteSignature removes exactly the named pattern or nothing: in every state
`cmd_del_sig` reports "not found" if and only if no stored signature has the pattern, and
then returns the state it was given; otherwise it reports the removal and the signature
list `pre ++ g :: post`, with `g` the first entry of that pattern, becomes `pre ++ post`;
in both cases the new signature list is the old one with the entry of that pattern
erased, and the clean, suspect and quarantine lists are unchanged. -/
theorem del_sig_removes_named_or_nothing (s : State) (p : String) :
    ((cmd_del_sig s p).2 = Msg.sig_not_found ↔ ∀ g ∈ s.signature_list, g.pattern ≠ p) ∧
    ((cmd_del_sig s p).2 = Msg.sig_not_found → (cmd_del_sig s p).1 = s) ∧
    ((cmd_del_sig s p).2 ≠ Msg.sig_not_found →
      (cmd_del_sig s p).2 = Msg.sig_removed ∧
      ∃ pre g post, s.signature_list = pre ++ g :: post ∧ g.pattern = p ∧
        (∀ x ∈ pre, x.pattern ≠ p) ∧ (cmd_del_sig s p).1.signature_list = pre ++ post) ∧
    (cmd_del_sig s p).1.signature_list = s.signature_list.erase { pattern := p } ∧
    (cmd_del_sig s p).1.clean_list = s.clean_list ∧
    (cmd_del_sig s p).1.suspect_list = s.suspect_list ∧
    (cmd_del_sig s p).1.quarantine_list = s.quarantine_list := by
  by_cases hex : ∃ g ∈ s.signature_list, g.pattern = p
  · obtain ⟨pre, g, post, h1, h2, h3⟩ := exists_first_signature hex
    rw [cmd_del_sig_present h1 h2 h3]
    have hg : g = { pattern := p } := by
      cases g
      simp only at h3
      rw [h3]
    have hnot : ({ pattern := p } : Sig) ∉ pre := fun hin => h2 _ hin rfl
    refine ⟨⟨fun hm => (by cases hm), fun hall => ?_⟩, fun hm => (by cases hm),
      fun _ => ⟨rfl, pre, g, post, h1, h3, h2, rfl⟩, ?_, rfl, rfl, rfl⟩
    · exact absurd h3 (hall g (by rw [h1]; simp))
    · simp only [h1, hg, List.erase_append_right _ hnot, List.erase_cons_head]
  · push_neg at hex
    rw [cmd_del_sig_absent hex]
    have hnot : ({ pattern := p } : Sig) ∉ s.signature_list := fun hin => hex _ hin rfl
    exact ⟨⟨fun _ => hex, fun _ => rfl⟩, fun _ => rfl, fun hne => absurd rfl hne,
      (List.erase_of_not_mem hnot).symm, rfl, rfl, rfl⟩

/-- C14. Signature uniqueness is an invariant: in every state reached from the empty
start state by any finite sequence of commands, no two entries of the signature list
have equal pattern strings. -/
theorem signature_uniqueness_invariant (s : State) (h : Reachable s) :
    List.Pairwise (fun a b : Sig => a.pattern ≠ b.pattern) s.signature_list := by
  have hn := reachable_patterns_nodup h
  simp only [patterns] at hn
  exact (List.pairwise_map).mp hn

theorem signature_uniqueness_invariant_witness :
    Reachable sample_two_sigs ∧
      List.Pairwise (fun a b : Sig => a.pattern ≠ b.pattern) sample_two_sigs.signature_list :=
  ⟨sample_two_sigs_reachable,
    signature_uniqueness_invariant sample_two_sigs sample_two_sigs_reachable⟩

/-- C15. AddSignature fails exactly on a duplicate and otherwise inserts
most-recent-first: in every state `cmd_add_sig` reports "already exists" if and only if
a stored signature has exactly that pattern string, and then returns the state it was
given; otherwise it reports the addition and the new signature list is the pattern
followed by the old list; in both cases the clean, suspect and quarantine lists are
unchanged. -/
theorem add_sig_fails_exactly_on_duplicate (s : State) (p : String) :
    ((cmd_add_sig s p).2 = Msg.sig_exists ↔ ∃ g ∈ s.signature_list, g.pattern = p) ∧
    ((cmd_add_sig s p).2 = Msg.sig_exists → (cmd_add_sig s p).1 = s) ∧
    ((cmd_add_sig s p).2 ≠ Msg.sig_exists →
      (cmd_add_sig s p).2 = Msg.sig_added ∧
      (cmd_add_sig s p).1.signature_list = { pattern := p } :: s.signature_list) ∧
    (cmd_add_sig s p).1.clean_list = s.clean_list ∧
    (cmd_add_sig s p).1.suspect_list = s.suspect_list ∧
    (cmd_add_sig s p).1.quarantine_list = s.quarantine_list := by
  by_cases hex : ∃ g ∈ s.signature_list, g.pattern = p
  · rw [cmd_add_sig_dup hex]
    exact ⟨⟨fun _ => hex, fun _ => rfl⟩, fun _ => rfl, fun hne => absurd rfl hne,
      rfl, rfl, rfl⟩
  · have hall : ∀ g ∈ s.signature_list, g.pattern ≠ p := by
      push_neg at hex
      exact hex
    rw [cmd_add_sig_fresh hall]
    exact ⟨⟨fun hm => (by cases hm), fun h => absurd h hex⟩, fun hm => (by cases hm),
      fun _ => ⟨rfl, rfl⟩, rfl, rfl, rfl⟩

/-- The pattern test of `cmd_add_sig` is whole-string and case-sensitive: with `virus`
stored, `Virus` and `vir` are both added in front, and `virus` is refused. -/
theorem add_sig_is_case_sensitive_whole_string :
    (cmd_add_sig sample_loaded "Virus").1.signature_list = [⟨"Virus"⟩, ⟨"virus"⟩] ∧
    (cmd_add_sig sample_loaded "vir").1.signature_list = [⟨"vir"⟩, ⟨"virus"⟩] ∧
    cmd_add_sig sample_loaded "virus" = (sample_loaded, Msg.sig_exists) := by
  decide

/-- C16, refuted as stated: in the reachable state `sample_quarantined` the record
`virus1.exe` sits in the quarantine list with `is_suspicious` still set and is not in
the suspect list, so the flag does not characterise the suspect list. -/
theorem quarantined_record_keeps_flag :
    Reachable sample_quarantined ∧
    (⟨"virus1.exe", 10, true⟩ : FileRec) ∈ sample_quarantined.quarantine_list ∧
    ¬ ∀ r ∈ registry sample_quarantined,
        (r.is_suspicious = true ↔ r ∈ sample_quarantined.suspect_list) := by
  refine ⟨sample_quarantined_reachable, by decide, ?_⟩
  intro hall
  have h := hall ⟨"virus1.exe", 10, true⟩ (by decide)
  exact absurd (h.mp rfl) (by decide)

/-- C16, amended. The flag characterises the suspect and quarantine lists together: in
every reachable state a file record has `is_suspicious` set if and only if it resides
in the suspect list or in the quarantine list, and clear if and only if it resides in
the clean list. -/
theorem flag_characterises_suspect_or_quarantine (s : State) (h : Reachable s) :
    ∀ r ∈ registry s,
      (r.is_suspicious = true ↔ r ∈ s.suspect_list ∨ r ∈ s.quarantine_list) ∧
      (r.is_suspicious = false ↔ r ∈ s.clean_list) := by
  have hinv := reachable_inv h
  intro r hr
  rcases mem_registry.mp hr with hc | hsq
  · have hf := hinv.clean_unflagged r hc
    refine ⟨⟨fun ht => ?_, fun hin => ?_⟩, fun _ => hc, fun _ => hf⟩
    · rw [hf] at ht
      cases ht
    · rcases hin with hin | hin
      · exact absurd rfl (inv_clean_suspect hinv hc hin)
      · exact absurd rfl (inv_clean_quarantine hinv hc hin)
  · have ht : r.is_suspicious = true := by
      rcases hsq with hin | hin
      · exact hinv.suspect_flagged r hin
      · exact hinv.quarantine_flagged r hin
    refine ⟨⟨fun _ => hsq, fun _ => ht⟩, fun hf => ?_, fun hc => ?_⟩
    · rw [ht] at hf
      cases hf
    · rw [hinv.clean_unflagged r hc] at ht
      cases ht

theorem flag_characterises_suspect_or_quarantine_witness :
    Reachable sample_quarantined ∧
    ∀ r ∈ registry sample_quarantined,
      (r.is_suspicious = true
        ↔ r ∈ sample_quarantined.suspect_list ∨ r ∈ sample_quarantined.quarantine_list) ∧
      (r.is_suspicious = false ↔ r ∈ sample_quarantined.clean_list) :=
  ⟨sample_quarantined_reachable,
    flag_characterises_suspect_or_quarantine sample_quarantined sample_quarantined_reachable⟩

/-- C17. Flag life cycle: in every reachable state every clean record is unflagged and
every suspect and every quarantine record is flagged; no command other than Restore
turns a set flag off (a record bearing the name of a flagged record is still flagged
after the command); and Restore of a quarantined record succeeds and puts it in the
clean list with the flag cleared. -/
theorem flag_life_cycle (s : State) (h : Reachable s) :
    (∀ r ∈ s.clean_list, r.is_suspicious = false) ∧
    (∀ r ∈ s.suspect_list, r.is_suspicious = true) ∧
    (∀ r ∈ s.quarantine_list, r.is_suspicious = true) ∧
    (∀ (c : Cmd) (s' : State) (m : Msg), exec s c = some (s', m) →
      (∀ name, c ≠ Cmd.restore name) →
      ∀ r ∈ registry s, r.is_suspicious = true →
        ∀ r' ∈ registry s', r'.name = r.name → r'.is_suspicious = true) ∧
    (∀ name, ∀ r ∈ s.quarantine_list, r.name = name →
      (cmd_restore s name).2 = Msg.restored ∧
      { name := r.name, size := r.size, is_suspicious := false }
        ∈ (cmd_restore s name).1.clean_list) := by
  have hinv := reachable_inv h
  refine ⟨hinv.clean_unflagged, hinv.suspect_flagged, hinv.quarantine_flagged, ?_, ?_⟩
  · intro c s' m hs hc r hr ht r' hr' hname
    have hinv' := inv_exec c hinv hs
    rcases mem_registry.mp hr' with hc' | hsus | hq
    · exfalso
      rcases clean_after_non_restore c hinv hs hc r' hc' with hold | hnew
      · have hrsq : r ∈ s.suspect_list ∨ r ∈ s.quarantine_list := by
          rcases mem_registry.mp hr with h1 | h1
          · rw [hinv.clean_unflagged r h1] at ht
            cases ht
          · exact h1
        rcases hrsq with h1 | h1
        · exact inv_clean_suspect hinv hold h1 hname
        · exact inv_clean_quarantine hinv hold h1 hname
      · apply hnew
        rw [hname]
        exact List.mem_map_of_mem _ hr
    · exact hinv'.suspect_flagged r' hsus
    · exact hinv'.quarantine_flagged r' hq
  · intro name r hr hname
    obtain ⟨pre, r', post, hs, hpre, hr'⟩ := exists_first_named ⟨r, hr, hname⟩
    have hrr : r' = r :=
      names_unique (inv_quarantine_nodup hinv) (by rw [hs]; simp) hr (hr'.trans hname.symm)
    subst hrr
    rw [cmd_restore_present hs hpre hr']
    exact ⟨rfl, List.mem_cons_self _ _⟩

theorem flag_life_cycle_witness :
    Reachable sample_quarantined ∧
    (∀ r ∈ sample_quarantined.clean_list, r.is_suspicious = false) ∧
    (∀ r ∈ sample_quarantined.suspect_list, r.is_suspicious = true) ∧
    (∀ r ∈ sample_quarantined.quarantine_list, r.is_suspicious = true) ∧
    (∀ (c : Cmd) (s' : State) (m : Msg), exec sample_quarantined c = some (s', m) →
      (∀ name, c ≠ Cmd.restore name) →
      ∀ r ∈ registry sample_quarantined, r.is_suspicious = true →
        ∀ r' ∈ registry s', r'.name = r.name → r'.is_suspicious = true) ∧
    (∀ name, ∀ r ∈ sample_quarantined.quarantine_list, r.name = name →
      (cmd_restore sample_quarantined name).2 = Msg.restored ∧
      { name := r.name, size := r.size, is_suspicious := false }
        ∈ (cmd_restore sample_quarantined name).1.clean_list) :=
  ⟨sample_quarantined_reachable,
    flag_life_cycle sample_quarantined sample_quarantined_reachable⟩

/-- Restore clears the flag: `virus1.exe`, flagged in quarantine, is unflagged in the
clean list of `sample_quarantined` after `RESTORE virus1.exe`. -/
theorem restore_clears_flag_sample :
    cmd_restore sample_quarantined "virus1.exe"
      = ({ sample_quarantined with
            clean_list := [⟨"virus1.exe", 10, false⟩, ⟨"readme.txt", 50, false⟩],
            quarantine_list := [] }, Msg.restored) := by
  decide

/-- C18. Moves conserve the records: from every reachable state the scan returns, and
each of Scan, Quarantine and Restore, successful or failing, leaves the `(name, size)`
pairs over the three partitions the same up to order (the same multiset) and the
total record count unchanged; the signature commands leave the three lists as they
are; a successful LoadFile adds exactly the pair `(name, size)`, a rejected one changes
nothing; and Purge leaves no record. -/
theorem moves_conserve_records (s : State) (h : Reachable s) :
    (∃ s' m, cmd_scan s = some (s', m) ∧
      (pairs (registry s')).Perm (pairs (registry s)) ∧ file_count s' = file_count s) ∧
    (∀ name, (pairs (registry (cmd_quarantine s name).1)).Perm (pairs (registry s)) ∧
      file_count (cmd_quarantine s name).1 = file_count s) ∧
    (∀ name, (pairs (registry (cmd_restore s name).1)).Perm (pairs (registry s)) ∧
      file_count (cmd_restore s name).1 = file_count s) ∧
    (∀ p, registry (cmd_add_sig s p).1 = registry s) ∧
    (∀ p, registry (cmd_del_sig s p).1 = registry s) ∧
    (∀ name size,
      ((cmd_load s name size).2 = Msg.file_loaded →
        pairs (registry (cmd_load s name size).1) = (name, size) :: pairs (registry s)) ∧
      ((cmd_load s name size).2 ≠ Msg.file_loaded → (cmd_load s name size).1 = s)) ∧
    registry (cmd_purge s).1 = [] := by
  have hinv := reachable_inv h
  have hcount : ∀ a b : State, (pairs (registry a)).Perm (pairs (registry b)) →
      file_count a = file_count b := by
    intro a b hp
    rw [file_count_eq, file_count_eq]
    exact hp.length_eq
  refine ⟨?_, ?_, ?_, ?_, ?_, ?_, ?_⟩
  · by_cases hsig : s.signature_list = []
    · exact ⟨s, _, cmd_scan_empty s hsig, List.Perm.refl _, rfl⟩
    · exact ⟨scan_result s, _,
        cmd_scan_eq s hsig (inv_clean_nodup hinv) hinv.clean_unflagged,
        scan_result_pairs_perm s, hcount _ _ (scan_result_pairs_perm s)⟩
  · exact fun name =>
      ⟨cmd_quarantine_pairs_perm s name, hcount _ _ (cmd_quarantine_pairs_perm s name)⟩
  · exact fun name =>
      ⟨cmd_restore_pairs_perm s name, hcount _ _ (cmd_restore_pairs_perm s name)⟩
  · intro p
    obtain ⟨h1, h2, h3⟩ := cmd_add_sig_registry s p
    simp only [registry, h1, h2, h3]
  · intro p
    obtain ⟨h1, h2, h3⟩ := cmd_del_sig_registry s p
    simp only [registry, h1, h2, h3]
  · intro name size
    by_cases hn : name ∈ names (registry s)
    · rw [cmd_load_dup size hn]
      exact ⟨fun hm => (by cases hm), fun _ => rfl⟩
    · rw [cmd_load_fresh size hn]
      exact ⟨fun _ => rfl, fun hne => absurd rfl hne⟩
  · simp [registry, cmd_purge, free_file_list_eq]

theorem moves_conserve_records_witness :
    Reachable sample_loaded ∧
    (∃ s' m, cmd_scan sample_loaded = some (s', m) ∧
      (pairs (registry s')).Perm (pairs (registry sample_loaded)) ∧
      file_count s' = file_count sample_loaded) ∧
    (∀ name,
      (pairs (registry (cmd_quarantine sample_loaded name).1)).Perm
        (pairs (registry sample_loaded)) ∧
      file_count (cmd_quarantine sample_loaded name).1 = file_count sample_loaded) ∧
    (∀ name,
      (pairs (registry (cmd_restore sample_loaded name).1)).Perm
        (pairs (registry sample_loaded)) ∧
      file_count (cmd_restore sample_loaded name).1 = file_count sample_loaded) ∧
    (∀ p, registry (cmd_add_sig sample_loaded p).1 = registry sample_loaded) ∧
    (∀ p, registry (cmd_del_sig sample_loaded p).1 = registry sample_loaded) ∧
    (∀ name size,
      ((cmd_load sample_loaded name size).2 = Msg.file_loaded →
        pairs (registry (cmd_load sample_loaded name size).1)
          = (name, size) :: pairs (registry sample_loaded)) ∧
      ((cmd_load sample_loaded name size).2 ≠ Msg.file_loaded →
        (cmd_load sample_loaded name size).1 = sample_loaded)) ∧
    registry (cmd_purge sample_loaded).1 = [] :=
  ⟨sample_loaded_reachable, moves_conserve_records sample_loaded sample_loaded_reachable⟩

/-- C20. Two-pass Scan equals a one-pass partition of the clean list: in a state with a
non-empty signature list, pairwise distinct clean names and no flagged clean record,
the scan returns and its clean and suspect lists are those of `one_pass_partition`; the
new clean list is the old one restricted to the records whose name matches no
signature, in their order; the new suspect list is the matching records of the old
clean list in reversed order, each with the flag set, followed by the old suspect
list; the quarantine list and the signature list are unchanged. -/
theorem scan_is_one_pass_partition (s : State) (hsig : s.signature_list ≠ [])
    (hdistinct : List.Pairwise (fun a b : FileRec => a.name ≠ b.name) s.clean_list)
    (hunflagged : ∀ r ∈ s.clean_list, r.is_suspicious = false) :
    ∃ s' n, cmd_scan s = some (s', Msg.scan_complete n) ∧
      (s'.clean_list, s'.suspect_list)
        = one_pass_partition s.signature_list s.clean_list s.suspect_list ∧
      s'.clean_list
        = s.clean_list.filter (fun r => !decide (name_matches s.signature_list r.name)) ∧
      s'.suspect_list
        = ((s.clean_list.filter
              (fun r => decide (name_matches s.signature_list r.name))).map
            (fun r => { r with is_suspicious := true })).reverse ++ s.suspect_list ∧
      s'.quarantine_list = s.quarantine_list ∧
      s'.signature_list = s.signature_list := by
  have hnd : (names s.clean_list).Nodup := by
    simp only [names]
    exact (List.pairwise_map).mpr hdistinct
  exact ⟨scan_result s, match_count s, cmd_scan_eq s hsig hnd hunflagged,
    (one_pass_partition_eq _ _ _).symm, rfl, rfl, rfl, rfl⟩

theorem scan_is_one_pass_partition_witness :
    ∃ s' n, cmd_scan sample_two_sigs = some (s', Msg.scan_complete n) ∧
      (s'.clean_list, s'.suspect_list)
        = one_pass_partition sample_two_sigs.signature_list sample_two_sigs.clean_list
            sample_two_sigs.suspect_list ∧
      s'.clean_list
        = sample_two_sigs.clean_list.filter
            (fun r => !decide (name_matches sample_two_sigs.signature_list r.name)) ∧
      s'.suspect_list
        = ((sample_two_sigs.clean_list.filter
              (fun r => decide (name_matches sample_two_sigs.signature_list r.name))).map
            (fun r => { r with is_suspicious := true })).reverse
          ++ sample_two_sigs.suspect_list ∧
      s'.quarantine_list = sample_two_sigs.quarantine_list ∧
      s'.signature_list = sample_two_sigs.signature_list :=
  scan_is_one_pass_partition sample_two_sigs (by decide) (by decide) (by decide)

/-- C19. The migration pass of Scan never dereferences a missing record: for any memory
in which the clean and the suspect list are two chains of distinct nodes, whatever the
names and flags of the records, the second loop of `cmd_scan` on linked nodes, given
more iterations than the clean list is long, ends normally: no `remove_file` call
returns `NULL`, so `insert_file` is never handed `NULL`; `current` takes the addresses
of the nodes that were in the clean list at the start, in list order, each exactly
once; and the two chains it leaves hold the records that the loop on lists,
`scan_move`, computes. -/
theorem migration_pass_never_dereferences_null (h : Heap) (clean suspect : Option Nat)
    (as bs : List Nat) (inner fuel : Nat)
    (hclean : Chain h clean as) (hsuspect : Chain h suspect bs)
    (hdistinct : (as ++ bs).Nodup) (hinner : as.length < inner) (hfuel : as.length < fuel) :
    ∃ h' clean' suspect' as' bs',
      Mem.scan_move inner fuel h clean suspect clean []
        = Run.ok (h', clean', suspect', as) ∧
      as.Nodup ∧
      Chain h' clean' as' ∧ Chain h' suspect' bs' ∧ (as' ++ bs').Nodup ∧
      scan_move (recs h as) (recs h as) (recs h bs) = some (recs h' as', recs h' bs') := by
  obtain ⟨h', clean', suspect', as', bs', hrun, hca, hcb, hnd, hlist⟩ :=
    mem_scan_move_spec inner as [] bs h clean suspect [] fuel (by simpa using hclean)
      hsuspect (by simpa using hdistinct) hfuel (by simpa using hinner)
  rw [← chain_head hclean] at hrun
  exact ⟨h', clean', suspect', as', bs', by simpa using hrun,
    (List.nodup_append.mp hdistinct).1, hca, hcb, hnd, by simpa using hlist⟩

theorem migration_pass_never_dereferences_null_witness :
    ∃ h' clean' suspect' as' bs',
      Mem.scan_move 4 4 sample_heap (some 1) (some 4) (some 1) []
        = Run.ok (h', clean', suspect', [1, 2, 3]) ∧
      [1, 2, 3].Nodup ∧
      Chain h' clean' as' ∧ Chain h' suspect' bs' ∧ (as' ++ bs').Nodup ∧
      scan_move (recs sample_heap [1, 2, 3]) (recs sample_heap [1, 2, 3])
          (recs sample_heap [4])
        = some (recs h' as', recs h' bs') :=
  migration_pass_never_dereferences_null sample_heap (some 1) (some 4) [1, 2, 3] [4] 4 4
    ⟨rfl, rfl, rfl, rfl⟩ ⟨rfl, rfl⟩ (by decide) (by decide) (by decide)

/-- The pass on `sample_heap`, where the flagged node 2 bears the name of the unflagged
node 1 in front of it: `remove_file` unlinks node 1, not node 2, and the walk still
visits 1, 2, 3. Afterwards the clean chain is node 2 alone and the suspect chain is
3, 1, 4. -/
theorem migration_pass_sample_heap :
    Run.view [1, 2, 3, 4] (Mem.scan_move 4 4 sample_heap (some 1) (some 4) (some 1) [])
      = some ([{ file := ⟨"x", 10, false⟩, next := some 4 },
               { file := ⟨"x", 20, true⟩, next := none },
               { file := ⟨"y", 30, true⟩, next := some 1 },
               { file := ⟨"z", 40, true⟩, next := none }],
              some 2, some 3, [1, 2, 3]) := by
  decide

/-- On lists, the scan returns in every state, well formed or not. -/
theorem scan_returns_in_every_state (s : State) : ∃ s' m, cmd_scan s = some (s', m) := by
  have h := cmd_scan_isSome s
  cases hs : cmd_scan s with
  | none => rw [hs] at h; cases h
  | some p => exact ⟨p.1, p.2, rfl⟩

end Antivirus
